import Mathlib

/-!
Verification of the linguistic aggregation and indexing engine of the
`writer-doc` repository: the dictionary builder (`src/analyzer/dictionary.py`),
the statistics computer (`src/analyzer/statistics.py`) and the noun–adjective
collocation extractor (`src/analyzer/collocations.py`), shallowly embedded as
executable Lean definitions over an annotated-token data model.

Python dictionaries and `collections.Counter` are modelled as association
lists kept in insertion order (Python dicts preserve insertion order and
in-place updates keep a key's position); Python `set` is modelled as a
duplicate-free list in insertion order; `sorted(..., reverse=True)` (a stable
sort) is modelled by a stable insertion sort.
-/

/-! ## String model

The Python string operations used by the engine (`str.lower`, `str.strip`,
`str.startswith`) are modelled on the character list underlying `String`.
-/

/-- Model of Python `str.lower` (character-wise lowercasing). -/
def pyLower (s : String) : String := ⟨s.data.map Char.toLower⟩

/-- Whitespace test used by the model of `str.strip`. -/
def isSpaceChar (c : Char) : Bool := c == ' ' || c == '\t' || c == '\n' || c == '\r'

/-- Model of Python `str.strip`: drop whitespace from both ends. -/
def pyStrip (s : String) : String :=
  ⟨((s.data.dropWhile isSpaceChar).reverse.dropWhile isSpaceChar).reverse⟩

/-- Character-list prefix test (model of Python `str.startswith`). -/
def listIsPre : List Char → List Char → Bool
  | [], _ => true
  | _ :: _, [] => false
  | a :: as, b :: bs => a == b && listIsPre as bs

/-- Model of Python `s.startswith(q)`. -/
def strStartsWith (s q : String) : Bool := listIsPre q.data s.data

@[simp] theorem listIsPre_nil (l : List Char) : listIsPre [] l = true := by
  cases l <;> rfl

@[simp] theorem strStartsWith_empty (s : String) : strStartsWith s "" = true := by
  simp [strStartsWith, listIsPre_nil]

/-! ## Data model

The annotated token stream produced by the (external) NLP pipeline: a document
is an ordered list of sentences, each an ordered list of tokens carrying
surface text, optional lemma (field `lemma_`; `lemma` is a Lean keyword), POS
tag, a sentence-local id, an optional head reference and an optional
grammatical-relation label, plus a character offset (`start`, used only for
ordering the two words of an example phrase).
-/

structure Token where
  text : String
  lemma_ : Option String
  pos : String
  id : String
  head_id : Option String
  rel : Option String
  start : Nat
deriving DecidableEq, Repr

structure Sentence where
  tokens : List Token
deriving DecidableEq, Repr

structure Doc where
  sents : List Sentence
deriving DecidableEq, Repr

/-- Flat token view of a document (natasha's `doc.tokens`). -/
def Doc.tokens (d : Doc) : List Token := (d.sents.map Sentence.tokens).flatten

/-- Model of Python `token.lemma or token.text`: the lemma unless it is
absent or empty, in which case the surface text. -/
def lemmaOf (t : Token) : String :=
  match t.lemma_ with
  | some s => if s = "" then t.text else s
  | none => t.text

/-- Lowercased lemma-or-surface-fallback, the grouping key component used
throughout the engine. -/
def lemmaLower (t : Token) : String := pyLower (lemmaOf t)

/-! ## Association lists

Insertion-ordered association lists model Python `dict` / `Counter` /
`defaultdict`.  A `Counter` increment keeps an existing key in place and
appends a new key at the end, exactly like a Python dict.
-/

section Assoc

variable {κ : Type} {ν : Type} [DecidableEq κ]

/-- Lookup in an association list (`dict.get` / `dict[k]`). -/
def lookupA : List (κ × ν) → κ → Option ν
  | [], _ => none
  | e :: es, k => if e.1 = k then some e.2 else lookupA es k

/-- Counter increment: `ctr[k] += 1` (update in place, or append `(k, 1)`). -/
def bumpA : List (κ × Nat) → κ → List (κ × Nat)
  | [], k => [(k, 1)]
  | e :: es, k => if e.1 = k then (e.1, e.2 + 1) :: es else e :: bumpA es k

/-- Dict assignment `m[k] = v`: overwrite in place, or append. -/
def setA : List (κ × ν) → κ → ν → List (κ × ν)
  | [], k, v => [(k, v)]
  | e :: es, k, v => if e.1 = k then (k, v) :: es else e :: setA es k v

/-- Count of a key in a Counter, zero when absent. -/
def getCountA (m : List (κ × Nat)) (k : κ) : Nat := (lookupA m k).getD 0

@[simp] theorem lookupA_nil (k : κ) : lookupA ([] : List (κ × ν)) k = none := rfl

theorem lookupA_bumpA_same (m : List (κ × Nat)) (k : κ) :
    lookupA (bumpA m k) k = some (getCountA m k + 1) := by
  induction m with
  | nil => simp [bumpA, lookupA, getCountA]
  | cons e es ih =>
    by_cases h : e.1 = k
    · simp [bumpA, h, lookupA, getCountA]
    · simp [bumpA, h, lookupA, getCountA, ih]

theorem lookupA_bumpA_other (m : List (κ × Nat)) (k k' : κ) (h : k' ≠ k) :
    lookupA (bumpA m k) k' = lookupA m k' := by
  have hkk : ¬ k = k' := fun h' => h h'.symm
  induction m with
  | nil => simp [bumpA, lookupA, hkk]
  | cons e es ih =>
    by_cases he : e.1 = k
    · simp [bumpA, he, lookupA, hkk]
    · simp [bumpA, he, lookupA, ih]

theorem getCountA_bumpA_same (m : List (κ × Nat)) (k : κ) :
    getCountA (bumpA m k) k = getCountA m k + 1 := by
  simp [getCountA, lookupA_bumpA_same]

theorem getCountA_bumpA_other (m : List (κ × Nat)) (k k' : κ) (h : k' ≠ k) :
    getCountA (bumpA m k) k' = getCountA m k' := by
  simp [getCountA, lookupA_bumpA_other m k k' h]

/-- Keys of the Counter after an increment: unchanged when the key was
present, the key appended at the end when it was new. -/
theorem keys_bumpA (m : List (κ × Nat)) (k : κ) :
    (bumpA m k).map Prod.fst =
      if (lookupA m k).isSome then m.map Prod.fst else m.map Prod.fst ++ [k] := by
  induction m with
  | nil => simp [bumpA, lookupA]
  | cons e es ih =>
    by_cases h : e.1 = k
    · simp [bumpA, h, lookupA]
    · simp only [bumpA, h, if_false, lookupA, List.map_cons, ih]
      by_cases h' : (lookupA es k).isSome <;> simp [h']

theorem lookupA_isSome_iff_mem_keys (m : List (κ × ν)) (k : κ) :
    (lookupA m k).isSome ↔ k ∈ m.map Prod.fst := by
  induction m with
  | nil => simp [lookupA]
  | cons e es ih =>
    by_cases h : e.1 = k
    · simp [lookupA, h]
    · have hkk : ¬ k = e.1 := fun h' => h h'.symm
      simp [lookupA, h, hkk, ih]

theorem keys_bumpA_nodup (m : List (κ × Nat)) (k : κ)
    (h : (m.map Prod.fst).Nodup) : ((bumpA m k).map Prod.fst).Nodup := by
  rw [keys_bumpA]
  by_cases hs : (lookupA m k).isSome
  · simpa [hs] using h
  · have hk : k ∉ m.map Prod.fst := by
      rw [← lookupA_isSome_iff_mem_keys]
      simpa using hs
    simp only [hs, if_false]
    exact List.Nodup.append h (List.nodup_singleton k)
      (fun a ha hb => hk ((List.mem_singleton.mp hb) ▸ ha))

/-- Membership of an entry in a key-duplicate-free association list
determines the lookup result. -/
theorem lookupA_eq_of_mem_of_nodup (m : List (κ × ν)) (k : κ) (v : ν)
    (hmem : (k, v) ∈ m) (hnd : (m.map Prod.fst).Nodup) :
    lookupA m k = some v := by
  induction m with
  | nil => simp at hmem
  | cons e es ih =>
    simp only [List.map_cons, List.nodup_cons] at hnd
    rcases List.mem_cons.mp hmem with h | h
    · rw [← h]
      simp [lookupA]
    · have hk : e.1 ≠ k := by
        intro he
        exact hnd.1 (he ▸ (List.mem_map.mpr ⟨(k, v), h, rfl⟩))
      simp [lookupA, hk, ih h hnd.2]

theorem mem_of_lookupA_eq_some (m : List (κ × ν)) (k : κ) (v : ν)
    (h : lookupA m k = some v) : (k, v) ∈ m := by
  induction m with
  | nil => simp [lookupA] at h
  | cons e es ih =>
    by_cases he : e.1 = k
    · rw [lookupA, if_pos he] at h
      obtain rfl : e.2 = v := by injection h
      have he2 : e = (k, e.2) := Prod.ext_iff.mpr ⟨he, rfl⟩
      rw [← he2]
      exact List.mem_cons_self _ _
    · rw [lookupA, if_neg he] at h
      exact List.mem_cons_of_mem _ (ih h)

theorem lookupA_append_of_isSome (m m' : List (κ × ν)) (k : κ)
    (h : (lookupA m k).isSome) : lookupA (m ++ m') k = lookupA m k := by
  induction m with
  | nil => simp [lookupA] at h
  | cons e es ih =>
    by_cases he : e.1 = k
    · simp [lookupA, he]
    · rw [lookupA, if_neg he] at h
      rw [List.cons_append, lookupA, if_neg he, lookupA, if_neg he]
      exact ih h

theorem lookupA_append_single_other (m : List (κ × ν)) (k k' : κ) (v : ν)
    (h : k' ≠ k) : lookupA (m ++ [(k', v)]) k = lookupA m k := by
  have hkk : ¬ k' = k := h
  induction m with
  | nil => simp [lookupA, hkk]
  | cons e es ih =>
    by_cases he : e.1 = k
    · simp [lookupA, he]
    · rw [List.cons_append, lookupA, if_neg he, lookupA, if_neg he]
      exact ih

end Assoc

/-! ## Stable descending sort

`Counter.most_common()` and Python `sorted(..., key=count, reverse=True)` are
stable descending sorts by an integer key.  They are modelled by a stable
insertion sort: an element is inserted before the first element whose key is
`≤` its own, so elements with equal keys keep their original relative order.
-/

section SortDesc

variable {α : Type}

/-- Insert `x` before the first element whose key is `≤ key x`. -/
def insertDesc (key : α → Nat) (x : α) : List α → List α
  | [] => [x]
  | y :: ys => if key y ≤ key x then x :: y :: ys else y :: insertDesc key x ys

/-- Stable sort by `key`, descending (model of `sorted(..., reverse=True)`
and of `Counter.most_common()`). -/
def sortDesc (key : α → Nat) (l : List α) : List α :=
  l.foldr (insertDesc key) []

theorem insertDesc_perm (key : α → Nat) (x : α) (l : List α) :
    (insertDesc key x l).Perm (x :: l) := by
  induction l with
  | nil => exact List.Perm.refl _
  | cons y ys ih =>
    by_cases h : key y ≤ key x
    · simp [insertDesc, h]
    · simp only [insertDesc, h, if_false]
      exact ((ih.cons y).trans (List.Perm.swap x y ys))

theorem sortDesc_perm (key : α → Nat) (l : List α) : (sortDesc key l).Perm l := by
  induction l with
  | nil => exact List.Perm.refl _
  | cons x xs ih =>
    exact (insertDesc_perm key x (sortDesc key xs)).trans (ih.cons x)

theorem insertDesc_pairwise (key : α → Nat) (x : α) (l : List α)
    (h : l.Pairwise (fun a b => key b ≤ key a)) :
    (insertDesc key x l).Pairwise (fun a b => key b ≤ key a) := by
  induction l with
  | nil => simp [insertDesc]
  | cons y ys ih =>
    by_cases hk : key y ≤ key x
    · simp only [insertDesc, hk, if_true]
      refine List.Pairwise.cons ?_ h
      intro b hb
      rcases List.mem_cons.mp hb with rfl | hb
      · exact hk
      · exact le_trans (List.rel_of_pairwise_cons h hb) hk
    · simp only [insertDesc, hk, if_false]
      have hys := (List.pairwise_cons.mp h).2
      refine List.Pairwise.cons ?_ (ih hys)
      intro b hb
      have hb' := (insertDesc_perm key x ys).mem_iff.mp hb
      rcases List.mem_cons.mp hb' with rfl | hb''
      · exact le_of_not_le hk
      · exact List.rel_of_pairwise_cons h hb''

/-- The sorted list is ordered by its key, descending. -/
theorem sortDesc_pairwise (key : α → Nat) (l : List α) :
    (sortDesc key l).Pairwise (fun a b => key b ≤ key a) := by
  induction l with
  | nil => simp [sortDesc]
  | cons x xs ih => exact insertDesc_pairwise key x (sortDesc key xs) ih

theorem filter_eq_false_of_key_ne {α : Type} (key : α → Nat) (c : Nat)
    (p : α → Bool) (hp : ∀ a, p a = true ↔ key a = c) (a : α) (ha : ¬ key a = c) :
    p a = false := by
  cases hb : p a
  · rfl
  · exact absurd ((hp a).mp hb) ha

theorem insertDesc_filter_key {α : Type} (key : α → Nat) (x : α) (l : List α)
    (c : Nat) (p : α → Bool) (hp : ∀ a, p a = true ↔ key a = c) :
    (insertDesc key x l).filter p =
      if key x = c then x :: l.filter p else l.filter p := by
  induction l with
  | nil =>
    by_cases hx : key x = c
    · simp [insertDesc, List.filter, (hp x).mpr hx, hx]
    · simp [insertDesc, List.filter, filter_eq_false_of_key_ne key c p hp x hx, hx]
  | cons y ys ih =>
    by_cases hk : key y ≤ key x
    · rw [insertDesc, if_pos hk]
      by_cases hx : key x = c
      · rw [if_pos hx, List.filter_cons_of_pos ((hp x).mpr hx)]
      · rw [if_neg hx, List.filter_cons_of_neg (by
          simp [filter_eq_false_of_key_ne key c p hp x hx])]
    · rw [insertDesc, if_neg hk]
      by_cases hy : key y = c
      · have hx : ¬ key x = c := by
          intro hx
          exact hk (by rw [hy, hx])
        rw [List.filter_cons_of_pos ((hp y).mpr hy), ih, if_neg hx, if_neg hx,
          List.filter_cons_of_pos ((hp y).mpr hy)]
      · have hpy : p y = false := filter_eq_false_of_key_ne key c p hp y hy
        rw [List.filter_cons_of_neg (by simp [hpy]), ih]
        by_cases hx : key x = c
        · rw [if_pos hx, if_pos hx, List.filter_cons_of_neg (by simp [hpy])]
        · rw [if_neg hx, if_neg hx, List.filter_cons_of_neg (by simp [hpy])]

/-- Stability of the descending sort: restricted to any fixed key value, the
sorted list coincides with the input list (equal-key elements keep their
original relative order). -/
theorem sortDesc_filter_key {α : Type} (key : α → Nat) (l : List α)
    (c : Nat) (p : α → Bool) (hp : ∀ a, p a = true ↔ key a = c) :
    (sortDesc key l).filter p = l.filter p := by
  induction l with
  | nil => simp [sortDesc]
  | cons x xs ih =>
    show (insertDesc key x (sortDesc key xs)).filter p = _
    rw [insertDesc_filter_key key x _ c p hp, ih]
    by_cases hx : key x = c
    · rw [if_pos hx, List.filter_cons_of_pos ((hp x).mpr hx)]
    · rw [if_neg hx, List.filter_cons_of_neg (by
        simp [filter_eq_false_of_key_ne key c p hp x hx])]

end SortDesc

/-- Lexicographic code-point comparison of character lists (model of
Python string `<=`). -/
def charListLe : List Char → List Char → Bool
  | [], _ => true
  | _ :: _, [] => false
  | a :: as, b :: bs =>
    if a.toNat < b.toNat then true
    else if b.toNat < a.toNat then false
    else charListLe as bs

/-- Model of Python string comparison `a <= b` (code-point lexicographic). -/
def strLe (a b : String) : Bool := charListLe a.data b.data

theorem charListLe_total : ∀ (as bs : List Char),
    charListLe as bs = true ∨ charListLe bs as = true := by
  intro as
  induction as with
  | nil => intro bs; exact Or.inl rfl
  | cons a as ih =>
    intro bs
    cases bs with
    | nil => exact Or.inr rfl
    | cons b bs =>
      by_cases hab : a.toNat < b.toNat
      · refine Or.inl ?_
        rw [charListLe, if_pos hab]
      · by_cases hba : b.toNat < a.toNat
        · refine Or.inr ?_
          rw [charListLe, if_pos hba]
        · rcases ih bs with h | h
          · refine Or.inl ?_
            rw [charListLe, if_neg hab, if_neg hba]
            exact h
          · refine Or.inr ?_
            rw [charListLe, if_neg hba, if_neg hab]
            exact h

theorem charListLe_trans : ∀ (as bs cs : List Char),
    charListLe as bs = true → charListLe bs cs = true → charListLe as cs = true := by
  intro as
  induction as with
  | nil => intro bs cs _ _; rfl
  | cons a as ih =>
    intro bs cs h1 h2
    cases bs with
    | nil => exact absurd h1 (by rw [charListLe]; simp)
    | cons b bs =>
      cases cs with
      | nil => exact absurd h2 (by rw [charListLe]; simp)
      | cons c cs =>
        by_cases hab : a.toNat < b.toNat
        · by_cases hbc : b.toNat < c.toNat
          · rw [charListLe, if_pos (Nat.lt_trans hab hbc)]
          · by_cases hcb : c.toNat < b.toNat
            · rw [charListLe, if_neg hbc, if_pos hcb] at h2
              exact absurd h2 (by simp)
            · have hbc' : b.toNat = c.toNat := by omega
              rw [charListLe, if_pos (hbc' ▸ hab)]
        · by_cases hba : b.toNat < a.toNat
          · rw [charListLe, if_neg hab, if_pos hba] at h1
            exact absurd h1 (by simp)
          · have hab' : a.toNat = b.toNat := by omega
            rw [charListLe, if_neg hab, if_neg hba] at h1
            by_cases hbc : b.toNat < c.toNat
            · rw [charListLe, if_pos (hab' ▸ hbc)]
            · by_cases hcb : c.toNat < b.toNat
              · rw [charListLe, if_neg hbc, if_pos hcb] at h2
                exact absurd h2 (by simp)
              · rw [charListLe, if_neg hbc, if_neg hcb] at h2
                rw [charListLe]
                have hac : ¬ a.toNat < c.toNat := by omega
                have hca : ¬ c.toNat < a.toNat := by omega
                rw [if_neg hac, if_neg hca]
                exact ih bs cs h1 h2

theorem strLe_total (a b : String) : strLe a b = true ∨ strLe b a = true :=
  charListLe_total a.data b.data

theorem strLe_trans (a b c : String) (h1 : strLe a b = true)
    (h2 : strLe b c = true) : strLe a c = true :=
  charListLe_trans a.data b.data c.data h1 h2

/-- Insert a string into a sorted list (ascending by `strLe`). -/
def insertStr (s : String) : List String → List String
  | [] => [s]
  | t :: ts => if strLe s t then s :: t :: ts else t :: insertStr s ts

/-- Ascending sort of strings (model of Python `sorted` on strings, which
compares code points lexicographically). -/
def sortStr (l : List String) : List String := l.foldr insertStr []

theorem insertStr_perm (s : String) (l : List String) :
    (insertStr s l).Perm (s :: l) := by
  induction l with
  | nil => exact List.Perm.refl _
  | cons t ts ih =>
    by_cases h : strLe s t = true
    · rw [insertStr, if_pos h]
    · rw [insertStr, if_neg h]
      exact ((ih.cons t).trans (List.Perm.swap s t ts))

theorem sortStr_perm (l : List String) : (sortStr l).Perm l := by
  induction l with
  | nil => exact List.Perm.refl _
  | cons s ss ih => exact (insertStr_perm s (sortStr ss)).trans (ih.cons s)

theorem insertStr_pairwise (s : String) (l : List String)
    (h : l.Pairwise (fun a b => strLe a b = true)) :
    (insertStr s l).Pairwise (fun a b => strLe a b = true) := by
  induction l with
  | nil => simp [insertStr]
  | cons t ts ih =>
    by_cases hk : strLe s t = true
    · rw [insertStr, if_pos hk]
      refine List.Pairwise.cons ?_ h
      intro b hb
      rcases List.mem_cons.mp hb with rfl | hb'
      · exact hk
      · exact strLe_trans s t b hk (List.rel_of_pairwise_cons h hb')
    · rw [insertStr, if_neg hk]
      have hts := (List.pairwise_cons.mp h).2
      refine List.Pairwise.cons ?_ (ih hts)
      intro b hb
      rcases List.mem_cons.mp ((insertStr_perm s ts).mem_iff.mp hb) with rfl | hb'
      · rcases strLe_total b t with h' | h'
        · exact absurd h' hk
        · exact h'
      · exact List.rel_of_pairwise_cons h hb'

theorem sortStr_sorted (l : List String) :
    (sortStr l).Pairwise (fun a b => strLe a b = true) := by
  induction l with
  | nil => simp [sortStr]
  | cons s ss ih => exact insertStr_pairwise s (sortStr ss) ih

/-! ## Collocation extractor (`src/analyzer/collocations.py`)

Pair keys are `(noun lemma, adjective lemma)`; the accumulated state carries
the pair counter (`Counter`) and the per-pair example phrases
(`defaultdict(list)`).
-/

/-- Pair key: (noun lemma, adjective lemma), both lowercased. -/
abbrev PairKey := String × String

/-- Accumulated extraction state: the pair counter and per-pair examples. -/
structure ExtState where
  ctr : List (PairKey × Nat)
  ex : List (PairKey × List String)
deriving DecidableEq, Repr

/-- Example phrases stored for a pair (`pair_examples.get(pair, [])`). -/
def getExamplesA (m : List (PairKey × List String)) (p : PairKey) : List String :=
  (lookupA m p).getD []

/-- Append an example phrase for a pair if fewer than 3 are stored and the
phrase is not a literal duplicate. -/
def maybeAddExample (m : List (PairKey × List String)) (p : PairKey)
    (phrase : String) : List (PairKey × List String) :=
  let cur := getExamplesA m p
  if cur.length < 3 ∧ phrase ∉ cur then setA m p (cur ++ [phrase]) else m

/-- Model of Python `" ".join(words)`. -/
def joinSpace : List String → String
  | [] => ""
  | [s] => s
  | s :: rest => s ++ " " ++ joinSpace rest

/-- Sentence-local id lookup table `{t.id: t for t in sent.tokens}` (a dict
comprehension: a duplicated id is silently overwritten, so the map binds each
id to the LAST token carrying it). -/
def buildIdMap (ts : List Token) : List (String × Token) :=
  ts.foldl (fun m t => setA m t.id t) []

/-- Resolve a token's head (`id_to_token.get(token.head_id)`). -/
def resolveHead (idMap : List (String × Token)) (t : Token) : Option Token :=
  match t.head_id with
  | none => none
  | some h => lookupA idMap h

/-- The surface phrase recorded by the syntactic pass: the two tokens in
document order (stable two-element sort by character offset). -/
def pass1Phrase (head t : Token) : String :=
  if head.start ≤ t.start then head.text ++ " " ++ t.text
  else t.text ++ " " ++ head.text

/-- One token of the syntactic pass (Pass 1): if the token carries the
`amod` relation with adjective-like POS and its head resolves to a
NOUN/PROPN, record the lemma pair. -/
def pass1Token (idMap : List (String × Token)) (st : ExtState) (t : Token) :
    ExtState :=
  if t.rel = some "amod" ∧ (t.pos = "ADJ" ∨ t.pos = "VERB") then
    match resolveHead idMap t with
    | none => st
    | some head =>
      if head.pos = "NOUN" ∨ head.pos = "PROPN" then
        { ctr := bumpA st.ctr (lemmaLower head, lemmaLower t),
          ex := maybeAddExample st.ex (lemmaLower head, lemmaLower t)
                  (pass1Phrase head t) }
      else st
  else st

/-- Pass 1 over one sentence. -/
def pass1Sent (st : ExtState) (s : Sentence) : ExtState :=
  s.tokens.foldl (pass1Token (buildIdMap s.tokens)) st

/-- Pass 1 (dependency-based, primary) over the whole document. -/
def pass1 (d : Doc) : ExtState :=
  d.sents.foldl pass1Sent ⟨[], []⟩

/-- One window neighbour `j` of the positional pass: a strictly-ADJ token in
the window forms a pair, but only when the pair is not already in the
accumulated counter. -/
def windowPhrase (tokens : List Token) (i j : Nat) : String :=
  joinSpace (((tokens.drop (min i j)).take (max i j + 1 - min i j)).map Token.text)

def windowJ (tokens : List Token) (i : Nat) (noun : String) (st : ExtState)
    (j : Nat) : ExtState :=
  if j = i then st
  else
    match tokens.get? j with
    | none => st
    | some other =>
      if other.pos = "ADJ" then
        if (lookupA st.ctr (noun, lemmaLower other)).isSome then st
        else
          { ctr := bumpA st.ctr (noun, lemmaLower other),
            ex := maybeAddExample st.ex (noun, lemmaLower other)
                    (windowPhrase tokens i j) }
      else st

/-- One token of the positional pass (Pass 2): scan the ±2 window around a
NOUN/PROPN token. -/
def pass2Token (tokens : List Token) (st : ExtState) (it : Nat × Token) :
    ExtState :=
  if it.2.pos = "NOUN" ∨ it.2.pos = "PROPN" then
    (List.range' (it.1 - 2) (min tokens.length (it.1 + 3) - (it.1 - 2))).foldl
      (windowJ tokens it.1 (lemmaLower it.2)) st
  else st

/-- Pass 2 (window-based, fallback) over the flat token stream. -/
def pass2 (tokens : List Token) (st : ExtState) : ExtState :=
  tokens.enum.foldl (pass2Token tokens) st

/-- Extraction state after both passes. -/
def extractState (d : Doc) : ExtState := pass2 d.tokens (pass1 d)

/-- An entry of the noun→adjective index. -/
structure AdjEntry where
  adj : String
  count : Nat
  examples : List String
deriving DecidableEq, Repr

/-- An entry of the adjective→noun index. -/
structure NounEntry where
  noun : String
  count : Nat
deriving DecidableEq, Repr

/-- An entry of the flat pair list. -/
structure PairEntry where
  noun : String
  adj : String
  count : Nat
  examples : List String
deriving DecidableEq, Repr

/-- The result bundle of `extract_noun_adj_pairs`. -/
structure CollocationIndex where
  noun_adj_index : List (String × List AdjEntry)
  adj_noun_index : List (String × List NounEntry)
  pair_list : List PairEntry
  total_pairs : Nat
  unique_pairs : Nat
deriving DecidableEq, Repr

/-- `defaultdict(list)` append: extend the list under a key in place, or
create the key at the end. -/
def appendValA {κ ν : Type} [DecidableEq κ] :
    List (κ × List ν) → κ → ν → List (κ × List ν)
  | [], k, v => [(k, [v])]
  | e :: es, k, v => if e.1 = k then (e.1, e.2 ++ [v]) :: es else e :: appendValA es k v

/-- The collocation extractor (`extract_noun_adj_pairs`): two passes, then
the ranked indexes, pair list, and the totals. -/
def extract_noun_adj_pairs (d : Doc) : CollocationIndex :=
  let st := extractState d
  let sorted := sortDesc (fun e => e.2) st.ctr
  { noun_adj_index :=
      (sorted.foldl
        (fun m e => appendValA m e.1.1 (⟨e.1.2, e.2, getExamplesA st.ex e.1⟩ : AdjEntry))
        []).map (fun kv => (kv.1, sortDesc AdjEntry.count kv.2)),
    adj_noun_index :=
      (sorted.foldl
        (fun m e => appendValA m e.1.2 (⟨e.1.1, e.2⟩ : NounEntry))
        []).map (fun kv => (kv.1, sortDesc NounEntry.count kv.2)),
    pair_list := sorted.map (fun e => ⟨e.1.1, e.1.2, e.2, getExamplesA st.ex e.1⟩),
    total_pairs := (st.ctr.map (fun e => e.2)).sum,
    unique_pairs := st.ctr.length }

/-- The deduplicate-and-truncate loop of the prefix-search branch: walk the
count-sorted matches, keep the first entry for each adjective, stop once
`limit` entries are collected. -/
def dedupTopGo (limit : Nat) : List AdjEntry → List String → List AdjEntry → List AdjEntry
  | [], _, res => res
  | x :: xs, seen, res =>
    if x.adj ∈ seen then
      if limit ≤ res.length then res else dedupTopGo limit xs seen res
    else
      if limit ≤ res.length + 1 then res ++ [x]
      else dedupTopGo limit xs (seen ++ [x.adj]) (res ++ [x])

/-- Collect the entries of every noun key that starts with the query. -/
def collectMatches (idx : List (String × List AdjEntry)) (q : String) :
    List AdjEntry :=
  idx.foldl (fun acc kv => if strStartsWith kv.1 q then acc ++ kv.2 else acc) []

/-- The search function (`search_adjectives_for_noun`): exact key first,
then prefix matching with dedup-by-adjective and count ranking. -/
def search_adjectives_for_noun (idx : List (String × List AdjEntry))
    (query : String) (limit : Nat) : List AdjEntry :=
  match lookupA idx (pyLower (pyStrip query)) with
  | some adjs => adjs.take limit
  | none =>
    dedupTopGo limit
      (sortDesc AdjEntry.count (collectMatches idx (pyLower (pyStrip query)))) [] []

/-! ## Dictionary builder (`src/analyzer/dictionary.py`) -/

/-- POS tags included in the dictionary (punctuation and symbols dropped). -/
def INCLUDE_POS : List String :=
  ["NOUN", "ADJ", "VERB", "ADV", "PROPN", "PRON", "NUM", "DET", "INTJ"]

/-- Grouping key of a dictionary entry: (lowercased lemma-or-fallback, POS). -/
def keyOf (t : Token) : String × String := (lemmaLower t, t.pos)

/-- Context snippet around the token at flat position `idx`
(`_extract_context` with `window=6`; in the source the index is recovered by
an identity scan over `doc.tokens`, which for a token of the stream is its
own flat position). -/
def extract_context (tokens : List Token) (idx : Nat) : String :=
  let start := idx - 6
  let stop := min tokens.length (idx + 7)
  joinSpace (((tokens.drop start).take (stop - start)).map Token.text)

/-- Add a surface form to the per-key form set (Python `set.add`, modelled
as a duplicate-free list). -/
def addUniqueVal (m : List ((String × String) × List String))
    (k : String × String) (v : String) : List ((String × String) × List String) :=
  if v ∈ (lookupA m k).getD [] then m
  else setA m k ((lookupA m k).getD [] ++ [v])

/-- Accumulated dictionary-builder state: the frequency counter, the surface
form sets, and the first-occurrence examples (the `entries` dict of the
source, whose per-key `example` is fixed at creation). -/
structure DictState where
  freq : List ((String × String) × Nat)
  forms : List ((String × String) × List String)
  exs : List ((String × String) × String)
deriving DecidableEq, Repr

/-- One token of the dictionary pass (`it` is the enumerated flat position
and token). -/
def dictStep (T : List Token) (st : DictState) (it : Nat × Token) : DictState :=
  if it.2.pos ∈ INCLUDE_POS then
    { freq := bumpA st.freq (keyOf it.2),
      forms := addUniqueVal st.forms (keyOf it.2) (pyLower it.2.text),
      exs := if (lookupA st.exs (keyOf it.2)).isSome then st.exs
             else setA st.exs (keyOf it.2) (extract_context T it.1) }
  else st

/-- Dictionary-builder state after the pass over the flat stream. -/
def dictState (d : Doc) : DictState :=
  (d.tokens.enum).foldl (dictStep d.tokens) ⟨[], [], []⟩

/-- A finished dictionary entry (field `example_`; `example` is a Lean keyword). -/
structure DictEntry where
  lemma_ : String
  pos : String
  count : Nat
  surface_forms : List String
  example_ : String
deriving DecidableEq, Repr

/-- Assemble the finished entry of a (key, count) pair of the counter. -/
def mkDictEntry (st : DictState) (e : (String × String) × Nat) : DictEntry :=
  ⟨e.1.1, e.1.2, e.2, sortStr ((lookupA st.forms e.1).getD []),
    (lookupA st.exs e.1).getD ""⟩

/-- The dictionary builder (`build_dictionary`): entries in
`freq.most_common()` order. -/
def build_dictionary (d : Doc) : List DictEntry :=
  (sortDesc (fun e => e.2) (dictState d).freq).map (mkDictEntry (dictState d))

/-- The dictionary before ranking: entries in first-seen key order (the
insertion order of the frequency counter). -/
def dictionaryUnsorted (d : Doc) : List DictEntry :=
  (dictState d).freq.map (mkDictEntry (dictState d))

/-! ## Statistics computer (`src/analyzer/statistics.py`) -/

/-- POS tags ranked by the per-category top-N lists. -/
def CONTENT_POS : List String := ["NOUN", "ADJ", "VERB", "ADV", "PROPN"]

/-- Static localized POS label table (`POS_LABELS_RU`). -/
def POS_LABELS_RU : List (String × String) :=
  [("NOUN", "Существительное"), ("ADJ", "Прилагательное"), ("VERB", "Глагол"),
   ("ADV", "Наречие"), ("PROPN", "Имя собственное"), ("PRON", "Местоимение"),
   ("DET", "Определитель"), ("ADP", "Предлог"), ("CCONJ", "Союз сочинит."),
   ("SCONJ", "Союз подчинит."), ("PART", "Частица"), ("NUM", "Числительное"),
   ("PUNCT", "Пунктуация"), ("INTJ", "Междометие"), ("SYM", "Символ"),
   ("X", "Прочее")]

/-- Model of Python `round(q, 2)` on exact rationals: round half to even at
the second decimal. -/
def roundHalfEven (q : ℚ) : ℤ :=
  let f := ⌊q⌋
  let r := q - f
  if r < 1/2 then f else if 1/2 < r then f + 1 else if f % 2 = 0 then f else f + 1

/-- Round a rational to 2 decimal places (half to even). -/
def round2 (q : ℚ) : ℚ := (roundHalfEven (q * 100) : ℚ) / 100

/-- Is a token a word (not punctuation or symbol)? -/
def isWordTok (t : Token) : Prop := ¬ (t.pos = "PUNCT" ∨ t.pos = "SYM")

instance (t : Token) : Decidable (isWordTok t) := by
  unfold isWordTok
  infer_instance

/-- Accumulated statistics state: the POS counter, one lemma counter per
content POS, the all-words lemma counter, the character total and the word
count. -/
structure StatsState where
  pos_counter : List (String × Nat)
  nounCtr : List (String × Nat)
  adjCtr : List (String × Nat)
  verbCtr : List (String × Nat)
  advCtr : List (String × Nat)
  propnCtr : List (String × Nat)
  all_lemmas : List (String × Nat)
  total_chars : Nat
  word_count : Nat
deriving DecidableEq, Repr

/-- One token of the statistics pass. -/
def statsStep (st : StatsState) (t : Token) : StatsState :=
  let st := { st with pos_counter := bumpA st.pos_counter t.pos }
  if t.pos = "PUNCT" ∨ t.pos = "SYM" then st
  else
    let st := { st with
      word_count := st.word_count + 1,
      total_chars := st.total_chars + t.text.length,
      all_lemmas := bumpA st.all_lemmas (lemmaLower t) }
    if t.pos = "NOUN" then { st with nounCtr := bumpA st.nounCtr (lemmaLower t) }
    else if t.pos = "ADJ" then { st with adjCtr := bumpA st.adjCtr (lemmaLower t) }
    else if t.pos = "VERB" then { st with verbCtr := bumpA st.verbCtr (lemmaLower t) }
    else if t.pos = "ADV" then { st with advCtr := bumpA st.advCtr (lemmaLower t) }
    else if t.pos = "PROPN" then { st with propnCtr := bumpA st.propnCtr (lemmaLower t) }
    else st

/-- Statistics state after the pass over the flat stream. -/
def statsState (d : Doc) : StatsState :=
  d.tokens.foldl statsStep ⟨[], [], [], [], [], [], [], 0, 0⟩

/-- The finished statistics report. -/
structure StatisticsReport where
  total_tokens : Nat
  total_words : Nat
  unique_lemmas : Nat
  vocabulary_richness : ℚ
  avg_word_length : ℚ
  pos_distribution : List (String × Nat)
  pos_labels_ru : List (String × String)
  top_nouns : List (String × Nat)
  top_adj : List (String × Nat)
  top_verbs : List (String × Nat)
  top_adv : List (String × Nat)
  top_propn : List (String × Nat)
deriving DecidableEq, Repr

/-- Top-N ranking of a lemma counter (`Counter.most_common(top_n)`). -/
def topOf (ctr : List (String × Nat)) (n : Nat) : List (String × Nat) :=
  (sortDesc (fun e => e.2) ctr).take n

/-- The statistics computer (`compute_statistics`). -/
def compute_statistics (d : Doc) (top_n : Nat) : StatisticsReport :=
  let st := statsState d
  { total_tokens := d.tokens.length,
    total_words := st.word_count,
    unique_lemmas := st.all_lemmas.length,
    vocabulary_richness :=
      if st.word_count = 0 then 0
      else round2 ((st.all_lemmas.length : ℚ) / (st.word_count : ℚ) * 100),
    avg_word_length :=
      if st.word_count = 0 then 0
      else round2 ((st.total_chars : ℚ) / (st.word_count : ℚ)),
    pos_distribution := sortDesc (fun e => e.2) st.pos_counter,
    pos_labels_ru := POS_LABELS_RU,
    top_nouns := topOf st.nounCtr top_n,
    top_adj := topOf st.adjCtr top_n,
    top_verbs := topOf st.verbCtr top_n,
    top_adv := topOf st.advCtr top_n,
    top_propn := topOf st.propnCtr top_n }

/-! ## General fold preservation -/

theorem foldl_preserve {α σ : Type} (P : σ → Prop) (f : σ → α → σ)
    (hstep : ∀ s a, P s → P (f s a)) :
    ∀ (l : List α) (s : σ), P s → P (l.foldl f s) := by
  intro l
  induction l with
  | nil => intro s hs; exact hs
  | cons x xs ih => intro s hs; exact ih (f s x) (hstep s x hs)

/-! ## Projections of the collocation result -/

theorem extract_pair_list_def (d : Doc) :
    (extract_noun_adj_pairs d).pair_list =
      (sortDesc (fun e => e.2) (extractState d).ctr).map
        (fun e => ⟨e.1.1, e.1.2, e.2, getExamplesA (extractState d).ex e.1⟩) := rfl

theorem extract_total_pairs_def (d : Doc) :
    (extract_noun_adj_pairs d).total_pairs =
      ((extractState d).ctr.map (fun e => e.2)).sum := rfl

theorem extract_unique_pairs_def (d : Doc) :
    (extract_noun_adj_pairs d).unique_pairs = (extractState d).ctr.length := rfl

/-! ## Pass-2 precedence machinery (claims C1 and C9) -/


/-- A window step never changes the stored count of a pair that is already
in the counter (the `if pair not in pair_counter` guard). -/
theorem windowJ_preserves_lookup (tokens : List Token) (i : Nat) (noun : String)
    (st : ExtState) (j : Nat) (p : PairKey) (n : Nat)
    (h : lookupA st.ctr p = some n) :
    lookupA (windowJ tokens i noun st j).ctr p = some n := by
  unfold windowJ
  by_cases hj : j = i
  · rw [if_pos hj]; exact h
  · rw [if_neg hj]
    cases ht : tokens.get? j with
    | none => exact h
    | some other =>
      dsimp only
      by_cases hadj : other.pos = "ADJ"
      · rw [if_pos hadj]
        by_cases hin : (lookupA st.ctr (noun, lemmaLower other)).isSome
        · rw [if_pos hin]; exact h
        · rw [if_neg hin]
          have hne : p ≠ (noun, lemmaLower other) := by
            intro he
            rw [← he, h] at hin
            exact hin rfl
          show lookupA (bumpA st.ctr (noun, lemmaLower other)) p = some n
          rw [lookupA_bumpA_other st.ctr _ p hne]
          exact h
      · rw [if_neg hadj]; exact h

/-- A pass-2 token step never changes the stored count of a pair already in
the counter. -/
theorem pass2Token_preserves_lookup (tokens : List Token) (st : ExtState)
    (it : Nat × Token) (p : PairKey) (n : Nat)
    (h : lookupA st.ctr p = some n) :
    lookupA (pass2Token tokens st it).ctr p = some n := by
  unfold pass2Token
  by_cases hpos : it.2.pos = "NOUN" ∨ it.2.pos = "PROPN"
  · rw [if_pos hpos]
    exact foldl_preserve (fun s => lookupA s.ctr p = some n) _
      (fun s j hs => windowJ_preserves_lookup tokens it.1 (lemmaLower it.2) s j p n hs)
      _ st h
  · rw [if_neg hpos]; exact h

/-- Pass 2 never changes the stored count of a pair that is in the counter
when it starts. -/
theorem pass2_preserves_lookup (tokens : List Token) (st : ExtState)
    (p : PairKey) (n : Nat) (h : lookupA st.ctr p = some n) :
    lookupA (pass2 tokens st).ctr p = some n := by
  unfold pass2
  exact foldl_preserve (fun s => lookupA s.ctr p = some n) _
    (fun s it hs => pass2Token_preserves_lookup tokens s it p n hs) _ st h

/-- Every count stored in a Counter is at least 1 (counts are created at 1
and only ever incremented). -/
def ctrWF {κ : Type} (m : List (κ × Nat)) : Prop := ∀ e ∈ m, 1 ≤ e.2

theorem ctrWF_bumpA {κ : Type} [DecidableEq κ] (m : List (κ × Nat)) (k : κ) (h : ctrWF m) :
    ctrWF (bumpA m k) := by
  induction m with
  | nil =>
    intro e he
    rw [bumpA] at he
    rcases List.mem_singleton.mp he with rfl
    simp
  | cons x xs ih =>
    by_cases hx : x.1 = k
    · intro e he
      rw [bumpA, if_pos hx] at he
      rcases List.mem_cons.mp he with rfl | he'
      · simp
      · exact h e (List.mem_cons_of_mem _ he')
    · intro e he
      rw [bumpA, if_neg hx] at he
      rcases List.mem_cons.mp he with rfl | he'
      · exact h e (List.mem_cons_self _ _)
      · exact ih (fun e' he'' => h e' (List.mem_cons_of_mem _ he'')) e he'

theorem ctrWF_lookup_eq_none {κ : Type} [DecidableEq κ] (m : List (κ × Nat)) (p : κ)
    (hwf : ctrWF m) (h : getCountA m p = 0) : lookupA m p = none := by
  match hl : lookupA m p with
  | none => rfl
  | some v =>
    have hv : 1 ≤ v := hwf (p, v) (mem_of_lookupA_eq_some m p v hl)
    rw [getCountA, hl] at h
    simp at h
    omega

/-- One pass-1 token step preserves any property of the counter that is
stable under `bumpA` (specialised to the two invariants we need). -/
theorem pass1Token_ctr_cases (idMap : List (String × Token)) (st : ExtState)
    (t : Token) :
    (pass1Token idMap st t).ctr = st.ctr ∨
      ∃ k, (pass1Token idMap st t).ctr = bumpA st.ctr k := by
  unfold pass1Token
  by_cases hc : t.rel = some "amod" ∧ (t.pos = "ADJ" ∨ t.pos = "VERB")
  · rw [if_pos hc]
    cases resolveHead idMap t with
    | none => exact Or.inl rfl
    | some head =>
      dsimp only
      by_cases hh : head.pos = "NOUN" ∨ head.pos = "PROPN"
      · rw [if_pos hh]
        exact Or.inr ⟨(lemmaLower head, lemmaLower t), rfl⟩
      · rw [if_neg hh]
        exact Or.inl rfl
  · rw [if_neg hc]
    exact Or.inl rfl

/-- One window step either leaves the counter unchanged or bumps one key. -/
theorem windowJ_ctr_cases (tokens : List Token) (i : Nat) (noun : String)
    (st : ExtState) (j : Nat) :
    (windowJ tokens i noun st j).ctr = st.ctr ∨
      ∃ k, (windowJ tokens i noun st j).ctr = bumpA st.ctr k := by
  unfold windowJ
  by_cases hj : j = i
  · rw [if_pos hj]; exact Or.inl rfl
  · rw [if_neg hj]
    cases ht : tokens.get? j with
    | none => exact Or.inl rfl
    | some other =>
      dsimp only
      by_cases hadj : other.pos = "ADJ"
      · rw [if_pos hadj]
        by_cases hin : (lookupA st.ctr (noun, lemmaLower other)).isSome
        · rw [if_pos hin]; exact Or.inl rfl
        · rw [if_neg hin]
          exact Or.inr ⟨(noun, lemmaLower other), rfl⟩
      · rw [if_neg hadj]; exact Or.inl rfl

/-- A single-step counter change (skip or bump) preserves the counter
invariants. -/
theorem ctr_inv_stable (st st' : ExtState)
    (hc : st'.ctr = st.ctr ∨ ∃ k, st'.ctr = bumpA st.ctr k)
    (h : (st.ctr.map Prod.fst).Nodup ∧ ctrWF st.ctr) :
    (st'.ctr.map Prod.fst).Nodup ∧ ctrWF st'.ctr := by
  obtain ⟨hnd, hwf⟩ := h
  rcases hc with hc | ⟨k, hc⟩
  · rw [hc]; exact ⟨hnd, hwf⟩
  · rw [hc]
    exact ⟨keys_bumpA_nodup st.ctr k hnd, ctrWF_bumpA st.ctr k hwf⟩

/-- The pass-1 counter has duplicate-free keys and well-formed counts. -/
theorem pass1_ctr_inv (d : Doc) :
    ((pass1 d).ctr.map Prod.fst).Nodup ∧ ctrWF (pass1 d).ctr := by
  unfold pass1
  refine foldl_preserve
    (fun s : ExtState => ((s.ctr.map Prod.fst).Nodup ∧ ctrWF s.ctr)) _ ?_ _ _ ?_
  · intro s sen hs
    unfold pass1Sent
    exact foldl_preserve _ _
      (fun s' t hs' =>
        ctr_inv_stable s' _ (pass1Token_ctr_cases (buildIdMap sen.tokens) s' t) hs') _ s hs
  · exact ⟨List.nodup_nil, fun e he => absurd he (List.not_mem_nil e)⟩

/-- The final counter has duplicate-free keys and well-formed counts. -/
theorem extractState_ctr_inv (d : Doc) :
    ((extractState d).ctr.map Prod.fst).Nodup ∧ ctrWF (extractState d).ctr := by
  unfold extractState pass2
  refine foldl_preserve
    (fun s : ExtState => ((s.ctr.map Prod.fst).Nodup ∧ ctrWF s.ctr)) _ ?_ _ _ (pass1_ctr_inv d)
  intro s it hs
  unfold pass2Token
  by_cases hpos : it.2.pos = "NOUN" ∨ it.2.pos = "PROPN"
  · rw [if_pos hpos]
    exact foldl_preserve _ _
      (fun s' j hs' =>
        ctr_inv_stable s' _ (windowJ_ctr_cases d.tokens it.1 (lemmaLower it.2) s' j) hs') _ s hs
  · rw [if_neg hpos]; exact hs

/-- A window step either leaves the counter unchanged or bumps a key that
was ABSENT from the counter (the precedence guard of Pass 2). -/
theorem windowJ_ctr_cases_absent (tokens : List Token) (i : Nat) (noun : String)
    (st : ExtState) (j : Nat) :
    (windowJ tokens i noun st j).ctr = st.ctr ∨
      ∃ k, lookupA st.ctr k = none ∧ (windowJ tokens i noun st j).ctr = bumpA st.ctr k := by
  unfold windowJ
  by_cases hj : j = i
  · rw [if_pos hj]; exact Or.inl rfl
  · rw [if_neg hj]
    cases ht : tokens.get? j with
    | none => exact Or.inl rfl
    | some other =>
      dsimp only
      by_cases hadj : other.pos = "ADJ"
      · rw [if_pos hadj]
        by_cases hin : (lookupA st.ctr (noun, lemmaLower other)).isSome
        · rw [if_pos hin]; exact Or.inl rfl
        · rw [if_neg hin]
          exact Or.inr ⟨(noun, lemmaLower other),
            Option.not_isSome_iff_eq_none.mp hin, rfl⟩
      · rw [if_neg hadj]; exact Or.inl rfl

/-- Through Pass 2 every pair's stored count either stays what Pass 1 left
it or goes from absent to exactly 1. -/
theorem pass2_count_cases (tokens : List Token) (st0 : ExtState) (p : PairKey) :
    lookupA (pass2 tokens st0).ctr p = lookupA st0.ctr p ∨
      (lookupA st0.ctr p = none ∧ lookupA (pass2 tokens st0).ctr p = some 1) := by
  unfold pass2
  refine foldl_preserve
    (fun s : ExtState => lookupA s.ctr p = lookupA st0.ctr p ∨
      (lookupA st0.ctr p = none ∧ lookupA s.ctr p = some 1)) _ ?_ _ _ (Or.inl rfl)
  intro s it hs
  unfold pass2Token
  by_cases hpos : it.2.pos = "NOUN" ∨ it.2.pos = "PROPN"
  · rw [if_pos hpos]
    refine foldl_preserve
      (fun s' : ExtState => lookupA s'.ctr p = lookupA st0.ctr p ∨
        (lookupA st0.ctr p = none ∧ lookupA s'.ctr p = some 1)) _ ?_ _ s hs
    intro s' j hs'
    rcases windowJ_ctr_cases_absent tokens it.1 (lemmaLower it.2) s' j with hc | ⟨k, hk, hc⟩
    · rw [hc]; exact hs'
    · by_cases hkp : k = p
      · subst hkp
        rcases hs' with h | ⟨h0, h1⟩
        · rw [hc, lookupA_bumpA_same]
          rw [hk] at h
          refine Or.inr ⟨h.symm, ?_⟩
          rw [getCountA, hk]
          rfl
        · rw [hk] at h1
          exact absurd h1 (by simp)
      · have hne : p ≠ k := fun h' => hkp h'.symm
        rw [hc, lookupA_bumpA_other s'.ctr k p hne]
        exact hs'
  · rw [if_neg hpos]; exact hs

/-- Count recorded for a pair key in the finished pair list (the entry with
matching noun and adjective, if any). -/
def lookupPairCount : List PairEntry → PairKey → Option Nat
  | [], _ => none
  | e :: es, p => if e.noun = p.1 ∧ e.adj = p.2 then some e.count else lookupPairCount es p

theorem lookupPairCount_map_eq (ex : List (PairKey × List String))
    (l : List (PairKey × Nat)) (p : PairKey) (n : Nat)
    (hmem : (p, n) ∈ l) (hnd : (l.map Prod.fst).Nodup) :
    lookupPairCount
      (l.map (fun e => (⟨e.1.1, e.1.2, e.2, getExamplesA ex e.1⟩ : PairEntry))) p
      = some n := by
  induction l with
  | nil => simp at hmem
  | cons x xs ih =>
    simp only [List.map_cons, List.nodup_cons] at hnd
    rw [List.map_cons, lookupPairCount]
    by_cases hx : x.1 = p
    · have hcond : (⟨x.1.1, x.1.2, x.2, getExamplesA ex x.1⟩ : PairEntry).noun = p.1 ∧
          (⟨x.1.1, x.1.2, x.2, getExamplesA ex x.1⟩ : PairEntry).adj = p.2 := by
        constructor <;> simp [hx]
      rw [if_pos hcond]
      rcases List.mem_cons.mp hmem with h | h
      · rw [← h]
      · exact absurd (hx ▸ (List.mem_map.mpr ⟨(p, n), h, rfl⟩)) hnd.1
    · have hcond : ¬ ((⟨x.1.1, x.1.2, x.2, getExamplesA ex x.1⟩ : PairEntry).noun = p.1 ∧
          (⟨x.1.1, x.1.2, x.2, getExamplesA ex x.1⟩ : PairEntry).adj = p.2) := by
        intro hc
        exact hx (Prod.ext_iff.mpr ⟨hc.1, hc.2⟩)
      rw [if_neg hcond]
      rcases List.mem_cons.mp hmem with h | h
      · exact absurd ((congrArg Prod.fst h).symm) hx
      · exact ih h hnd.2

theorem lookupPairCount_map_none (ex : List (PairKey × List String))
    (l : List (PairKey × Nat)) (p : PairKey)
    (hmem : p ∉ l.map Prod.fst) :
    lookupPairCount
      (l.map (fun e => (⟨e.1.1, e.1.2, e.2, getExamplesA ex e.1⟩ : PairEntry))) p
      = none := by
  induction l with
  | nil => rfl
  | cons x xs ih =>
    simp only [List.map_cons, List.mem_cons] at hmem
    rw [List.map_cons, lookupPairCount]
    have hx : ¬ x.1 = p := fun h => hmem (Or.inl h.symm)
    have hcond : ¬ ((⟨x.1.1, x.1.2, x.2, getExamplesA ex x.1⟩ : PairEntry).noun = p.1 ∧
        (⟨x.1.1, x.1.2, x.2, getExamplesA ex x.1⟩ : PairEntry).adj = p.2) := by
      intro hc
      exact hx (Prod.ext_iff.mpr ⟨hc.1, hc.2⟩)
    rw [if_neg hcond]
    exact ih (fun h => hmem (Or.inr h))

theorem lookupA_eq_some_getCountA_of_pos {κ : Type} [DecidableEq κ]
    (m : List (κ × Nat)) (k : κ) (h : 0 < getCountA m k) :
    lookupA m k = some (getCountA m k) := by
  match hl : lookupA m k with
  | none => rw [getCountA, hl] at h; simp at h
  | some v => rw [getCountA, hl]; rfl

/-- The count recorded by Pass 1 alone for a pair. -/
def pass1Count (d : Doc) (p : PairKey) : Nat := getCountA (pass1 d).ctr p

/-- C1. If a pair was recorded by the syntactic pass, its final count in the
pair list equals the Pass-1 count alone: the positional-window pass never
increments a pair that Pass 1 already discovered. -/
theorem pass1_pair_count_unchanged_by_pass2 (d : Doc) (p : PairKey)
    (h : 0 < pass1Count d p) :
    lookupPairCount (extract_noun_adj_pairs d).pair_list p = some (pass1Count d p) := by
  have hsome : lookupA (pass1 d).ctr p = some (pass1Count d p) :=
    lookupA_eq_some_getCountA_of_pos _ p h
  have hfin : lookupA (extractState d).ctr p = some (pass1Count d p) :=
    pass2_preserves_lookup d.tokens (pass1 d) p _ hsome
  have hmem : (p, pass1Count d p) ∈ (extractState d).ctr :=
    mem_of_lookupA_eq_some _ p _ hfin
  have hperm := sortDesc_perm (fun e : PairKey × Nat => e.2) (extractState d).ctr
  have hnd : ((sortDesc (fun e : PairKey × Nat => e.2) (extractState d).ctr).map
      Prod.fst).Nodup :=
    ((hperm.map Prod.fst).nodup_iff).mpr (extractState_ctr_inv d).1
  rw [extract_pair_list_def]
  exact lookupPairCount_map_eq (extractState d).ex _ p _
    (hperm.mem_iff.mpr hmem) hnd

/-- Witness for C1: a document where the pair (dom, staryj) is found by the
syntactic pass and again by the window pass; the final count is the Pass-1
count. -/
def tC1adj : Token := ⟨"staryj", some "staryj", "ADJ", "1_1", some "1_2", some "amod", 0⟩

def tC1noun : Token := ⟨"dom", some "dom", "NOUN", "1_2", some "1_3", some "nsubj", 7⟩

def dC1 : Doc := ⟨[⟨[tC1adj, tC1noun]⟩]⟩

theorem pass1_pair_count_unchanged_by_pass2_witness :
    0 < pass1Count dC1 ("dom", "staryj") ∧
      lookupPairCount (extract_noun_adj_pairs dC1).pair_list ("dom", "staryj")
        = some (pass1Count dC1 ("dom", "staryj")) :=
  ⟨by decide, pass1_pair_count_unchanged_by_pass2 dC1 ("dom", "staryj") (by decide)⟩

/-- C2. The totals of the collocation index: `total_pairs` is the sum of the
counts of the pair list and `unique_pairs` is its length. -/
theorem collocation_totals_consistent (d : Doc) :
    (extract_noun_adj_pairs d).total_pairs
        = ((extract_noun_adj_pairs d).pair_list.map PairEntry.count).sum ∧
      (extract_noun_adj_pairs d).unique_pairs
        = (extract_noun_adj_pairs d).pair_list.length := by
  have hperm := sortDesc_perm (fun e : PairKey × Nat => e.2) (extractState d).ctr
  constructor
  · rw [extract_total_pairs_def, extract_pair_list_def, List.map_map]
    have hmap : (PairEntry.count ∘ fun e : PairKey × Nat =>
        (⟨e.1.1, e.1.2, e.2, getExamplesA (extractState d).ex e.1⟩ : PairEntry))
        = fun e : PairKey × Nat => e.2 := rfl
    rw [hmap]
    exact ((hperm.map (fun e : PairKey × Nat => e.2)).sum_eq).symm
  · rw [extract_unique_pairs_def, extract_pair_list_def, List.length_map]
    exact hperm.length_eq.symm

/-- C9. A pair that Pass 1 never recorded has final count exactly 1, no
matter how many window co-occurrences the document contains: once Pass 2
inserts a pair, the membership guard stops every further increment. -/
theorem pass2_only_pairs_count_one (d : Doc) (p : PairKey) (n : Nat)
    (h0 : pass1Count d p = 0)
    (hn : lookupPairCount (extract_noun_adj_pairs d).pair_list p = some n) :
    n = 1 := by
  have hp1 : lookupA (pass1 d).ctr p = none :=
    ctrWF_lookup_eq_none _ p (pass1_ctr_inv d).2 h0
  have hperm := sortDesc_perm (fun e : PairKey × Nat => e.2) (extractState d).ctr
  have hnd : ((sortDesc (fun e : PairKey × Nat => e.2) (extractState d).ctr).map
      Prod.fst).Nodup :=
    ((hperm.map Prod.fst).nodup_iff).mpr (extractState_ctr_inv d).1
  rcases pass2_count_cases d.tokens (pass1 d) p with hc | ⟨_, hc⟩
  · -- the pair is absent from the final counter, contradicting `hn`
    have habs : p ∉ (extractState d).ctr.map Prod.fst := by
      rw [← lookupA_isSome_iff_mem_keys]
      have : lookupA (extractState d).ctr p = none := by
        show lookupA (pass2 d.tokens (pass1 d)).ctr p = none
        rw [hc, hp1]
      simp [this]
    have habs' : p ∉ (sortDesc (fun e : PairKey × Nat => e.2) (extractState d).ctr).map
        Prod.fst := fun hmem => habs ((hperm.map Prod.fst).mem_iff.mp hmem)
    rw [extract_pair_list_def, lookupPairCount_map_none _ _ _ habs'] at hn
    exact absurd hn (by simp)
  · have hmem : (p, 1) ∈ (extractState d).ctr := mem_of_lookupA_eq_some _ p 1 hc
    rw [extract_pair_list_def,
      lookupPairCount_map_eq (extractState d).ex _ p 1 (hperm.mem_iff.mpr hmem) hnd] at hn
    injection hn.symm

/-- Witness for C9: a document whose only pair is window-discovered (no
`amod` relation), occurring once; its recorded count is 1. -/
def tC9adj : Token := ⟨"bolshoj", some "bolshoj", "ADJ", "1_1", none, none, 0⟩

def tC9noun : Token := ⟨"dom", some "dom", "NOUN", "1_2", none, none, 8⟩

def dC9 : Doc := ⟨[⟨[tC9adj, tC9noun]⟩]⟩

theorem pass2_only_pairs_count_one_witness :
    pass1Count dC9 ("dom", "bolshoj") = 0 ∧
      lookupPairCount (extract_noun_adj_pairs dC9).pair_list ("dom", "bolshoj")
        = some 1 ∧ (1 : Nat) = 1 :=
  ⟨by decide, by decide,
    pass2_only_pairs_count_one dC9 ("dom", "bolshoj") 1 (by decide) (by decide)⟩

/-! ## Error-handling behaviour of the extractor (claim C6) -/

theorem lookupA_setA_same {κ ν : Type} [DecidableEq κ]
    (m : List (κ × ν)) (k : κ) (v : ν) : lookupA (setA m k v) k = some v := by
  induction m with
  | nil => simp [setA, lookupA]
  | cons e es ih =>
    by_cases he : e.1 = k
    · rw [setA, if_pos he, lookupA, if_pos rfl]
    · rw [setA, if_neg he, lookupA, if_neg he]
      exact ih

theorem lookupA_setA_other {κ ν : Type} [DecidableEq κ]
    (m : List (κ × ν)) (k k' : κ) (v : ν) (h : k' ≠ k) :
    lookupA (setA m k v) k' = lookupA m k' := by
  have hkk : ¬ k = k' := fun h' => h h'.symm
  induction m with
  | nil => simp [setA, lookupA, hkk]
  | cons e es ih =>
    by_cases he : e.1 = k
    · rw [setA, if_pos he, lookupA, lookupA]
      by_cases he' : e.1 = k'
      · exact absurd (he' ▸ he.symm) hkk
      · rw [if_neg hkk, if_neg he']
    · rw [setA, if_neg he, lookupA, lookupA]
      by_cases he' : e.1 = k'
      · rw [if_pos he', if_pos he']
      · rw [if_neg he', if_neg he']
        exact ih

/-- The last token of a list carrying a given id, if any. -/
def lastWithId (i : String) : List Token → Option Token
  | [] => none
  | t :: ts =>
    match lastWithId i ts with
    | some r => some r
    | none => if t.id = i then some t else none

theorem buildIdMap_go (i : String) (ts : List Token) :
    ∀ m : List (String × Token),
      lookupA (ts.foldl (fun m t => setA m t.id t) m) i =
        match lastWithId i ts with
        | some r => some r
        | none => lookupA m i := by
  induction ts with
  | nil => intro m; rfl
  | cons t ts ih =>
    intro m
    rw [List.foldl_cons, ih (setA m t.id t)]
    cases hl : lastWithId i ts with
    | some r => simp [lastWithId, hl]
    | none =>
      by_cases hti : t.id = i
      · simp [lastWithId, hl, hti, lookupA_setA_same]
      · have hne : i ≠ t.id := fun h' => hti h'.symm
        simp [lastWithId, hl, hti, lookupA_setA_other m t.id i t hne]

/-- The sentence-local id table resolves every id to the LAST token carrying
it: built by a dict comprehension, a duplicated id silently overwrites. -/
theorem buildIdMap_lookup (ts : List Token) (i : String) :
    lookupA (buildIdMap ts) i = lastWithId i ts := by
  rw [buildIdMap, buildIdMap_go i ts []]
  cases lastWithId i ts <;> rfl

/-- A pass-1 token whose head reference does not resolve is skipped entirely:
no pair is recorded and no exception is raised. -/
theorem pass1Token_skips_unresolved (idMap : List (String × Token))
    (st : ExtState) (t : Token) (h : resolveHead idMap t = none) :
    pass1Token idMap st t = st := by
  unfold pass1Token
  by_cases hc : t.rel = some "amod" ∧ (t.pos = "ADJ" ∨ t.pos = "VERB")
  · rw [if_pos hc, h]
  · rw [if_neg hc]

/-- Does some sentence of the document contain two (position-)distinct
tokens with the same id? -/
def hasIdCollision (d : Doc) : Prop :=
  ∃ s ∈ d.sents, ¬ (s.tokens.map Token.id).Nodup

instance (d : Doc) : Decidable (hasIdCollision d) := by
  unfold hasIdCollision
  infer_instance

/-- Tokens of the C6 counterexample: two NOUN tokens share the sentence-local
id `1_1`, and an `amod` adjective points its head at that duplicated id. -/
def tC6a : Token := ⟨"dom", some "dom", "NOUN", "1_1", none, none, 0⟩

def tC6b : Token := ⟨"kot", some "kot", "NOUN", "1_1", none, none, 4⟩

def tC6c : Token := ⟨"staryj", some "staryj", "ADJ", "1_2", some "1_1", some "amod", 8⟩

def dC6 : Doc := ⟨[⟨[tC6a, tC6b, tC6c]⟩]⟩

/-- C6 counterexample. The claim says the core RAISES on a sentence whose
tokens collide on an id.  It does not: the source builds the id table with a
dict comprehension (`{t.id: t for t in sent.tokens}`), which silently keeps
the last token per id, and extraction completes normally — on this colliding
document it returns an ordinary index (the `amod` pair is resolved against
the LAST token with id `1_1`, namely `kot`). -/
theorem extractor_raises_on_collision_counterexample :
    hasIdCollision dC6 ∧
      (extract_noun_adj_pairs dC6).total_pairs = 2 ∧
      lookupPairCount (extract_noun_adj_pairs dC6).pair_list ("kot", "staryj")
        = some 1 := by
  refine ⟨by decide, by decide, by decide⟩

/-- C6 amended. On a structurally damaged input the extractor never raises:
a token whose `amod` head id resolves to no token is skipped with no pair
recorded, and a duplicated id is silently resolved to the last token
carrying it (extraction proceeds normally). -/
theorem extractor_error_handling_amended :
    (∀ (idMap : List (String × Token)) (st : ExtState) (t : Token),
        resolveHead idMap t = none → pass1Token idMap st t = st) ∧
      (∀ (ts : List Token) (i : String),
        lookupA (buildIdMap ts) i = lastWithId i ts) :=
  ⟨pass1Token_skips_unresolved, buildIdMap_lookup⟩

/-- An `amod` adjective whose head id occurs nowhere (used by the C6
witness). -/
def tC6unres : Token := ⟨"staryj", some "staryj", "ADJ", "1_2", some "9_9", some "amod", 0⟩

theorem extractor_error_handling_amended_witness :
    pass1Token [] ⟨[], []⟩ tC6unres = ⟨[], []⟩ ∧
      lookupA (buildIdMap [tC6a, tC6b, tC6c]) "1_1"
        = lastWithId "1_1" [tC6a, tC6b, tC6c] :=
  ⟨extractor_error_handling_amended.1 [] ⟨[], []⟩ tC6unres (by decide),
    extractor_error_handling_amended.2 [tC6a, tC6b, tC6c] "1_1"⟩

/-! ## Search behaviour (claims C4 and C10) -/

theorem dedupTopGo_extends (limit : Nat) :
    ∀ (l : List AdjEntry) (seen : List String) (res : List AdjEntry),
      res <+: dedupTopGo limit l seen res := by
  intro l
  induction l with
  | nil => intro seen res; exact List.prefix_refl res
  | cons x xs ih =>
    intro seen res
    simp only [dedupTopGo]
    by_cases hmem : x.adj ∈ seen
    · rw [if_pos hmem]
      by_cases hlim : limit ≤ res.length
      · rw [if_pos hlim]
      · rw [if_neg hlim]
        exact ih seen res
    · rw [if_neg hmem]
      by_cases hlim : limit ≤ res.length + 1
      · rw [if_pos hlim]
        exact ⟨[x], rfl⟩
      · rw [if_neg hlim]
        exact List.IsPrefix.trans ⟨[x], rfl⟩ (ih (seen ++ [x.adj]) (res ++ [x]))

theorem dedupTopGo_length (limit : Nat) :
    ∀ (l : List AdjEntry) (seen : List String) (res : List AdjEntry),
      res.length < limit → (dedupTopGo limit l seen res).length ≤ limit := by
  intro l
  induction l with
  | nil => intro seen res h; exact le_of_lt h
  | cons x xs ih =>
    intro seen res h
    simp only [dedupTopGo]
    by_cases hmem : x.adj ∈ seen
    · rw [if_pos hmem, if_neg (Nat.not_le.mpr h)]
      exact ih seen res h
    · rw [if_neg hmem]
      by_cases hlim : limit ≤ res.length + 1
      · rw [if_pos hlim]
        simpa using Nat.succ_le_of_lt h
      · rw [if_neg hlim]
        refine ih _ _ ?_
        simpa using Nat.not_le.mp hlim

theorem dedupTopGo_ne_nil (limit : Nat) (l : List AdjEntry) (h : l ≠ []) :
    dedupTopGo limit l [] [] ≠ [] := by
  cases l with
  | nil => exact absurd rfl h
  | cons x xs =>
    simp only [dedupTopGo]
    rw [if_neg (List.not_mem_nil x.adj)]
    by_cases hlim : limit ≤ ([] : List AdjEntry).length + 1
    · rw [if_pos hlim]
      simp
    · rw [if_neg hlim]
      have hpre := dedupTopGo_extends limit xs ([] ++ [x.adj]) ([] ++ [x])
      intro he
      rw [he] at hpre
      have := hpre.length_le
      simp at this

theorem collectMatches_empty_query (idx : List (String × List AdjEntry)) :
    collectMatches idx "" = (idx.map Prod.snd).flatten := by
  have hgo : ∀ (l : List (String × List AdjEntry)) (acc : List AdjEntry),
      l.foldl (fun acc kv => if strStartsWith kv.1 "" then acc ++ kv.2 else acc) acc
        = acc ++ (l.map Prod.snd).flatten := by
    intro l
    induction l with
    | nil => intro acc; simp
    | cons kv rest ih =>
      intro acc
      rw [List.foldl_cons, if_pos (strStartsWith_empty kv.1), ih]
      simp
  rw [collectMatches, hgo]
  simp

/-- Full behaviour of the dedup-and-truncate loop on a count-sorted input:
the result has duplicate-free adjectives, is count-sorted, every kept entry
comes from the input and dominates (by count) every input entry with the
same adjective, and when the limit was not reached every input adjective is
represented. -/
theorem dedupTopGo_spec (limit : Nat) :
    ∀ (l seen res : _),
      seen = res.map AdjEntry.adj →
      (res.map AdjEntry.adj).Nodup →
      res.Pairwise (fun a b => b.count ≤ a.count) →
      l.Pairwise (fun a b => b.count ≤ a.count) →
      (∀ r ∈ res, ∀ x ∈ l, x.count ≤ r.count) →
      (∀ r ∈ res, ∀ e' ∈ res ++ l, e'.adj = r.adj → e'.count ≤ r.count) →
      ((dedupTopGo limit l seen res).map AdjEntry.adj).Nodup ∧
        (dedupTopGo limit l seen res).Pairwise (fun a b => b.count ≤ a.count) ∧
        (∀ e ∈ dedupTopGo limit l seen res, (e ∈ res ∨ e ∈ l) ∧
          ∀ e' ∈ res ++ l, e'.adj = e.adj → e'.count ≤ e.count) ∧
        ((dedupTopGo limit l seen res).length < limit →
          ∀ x ∈ l, ∃ r ∈ dedupTopGo limit l seen res, r.adj = x.adj) := by
  intro l
  induction l with
  | nil =>
    intro seen res hseen hnd hsorted _ _ hmax
    simp only [dedupTopGo]
    refine ⟨hnd, hsorted, ?_, ?_⟩
    · intro e he
      refine ⟨Or.inl he, ?_⟩
      intro e' he' hadj
      exact hmax e he e' he' hadj
    · intro _ x hx
      exact absurd hx (List.not_mem_nil x)
  | cons x xs ih =>
    intro seen res hseen hnd hsorted hsortl hbound hmax
    have hsortxs : xs.Pairwise (fun a b => b.count ≤ a.count) :=
      (List.pairwise_cons.mp hsortl).2
    have hxdom : ∀ y ∈ xs, y.count ≤ x.count :=
      fun y hy => List.rel_of_pairwise_cons hsortl hy
    simp only [dedupTopGo]
    by_cases hmem : x.adj ∈ seen
    · -- skip: the adjective is already represented in `res`
      rw [if_pos hmem]
      obtain ⟨r0, hr0mem, hr0adj⟩ : ∃ r0 ∈ res, r0.adj = x.adj := by
        rw [hseen] at hmem
        obtain ⟨r0, h1, h2⟩ := List.mem_map.mp hmem
        exact ⟨r0, h1, h2⟩
      by_cases hlim : limit ≤ res.length
      · rw [if_pos hlim]
        refine ⟨hnd, hsorted, ?_, ?_⟩
        · intro e he
          refine ⟨Or.inl he, ?_⟩
          intro e' he' hadj
          rcases List.mem_append.mp he' with h' | h'
          · exact hmax e he e' (List.mem_append.mpr (Or.inl h')) hadj
          · exact hmax e he e' (List.mem_append.mpr (Or.inr h')) hadj
        · intro hlen
          exact absurd hlim (Nat.not_le.mpr hlen)
      · rw [if_neg hlim]
        have hbound' : ∀ r ∈ res, ∀ y ∈ xs, y.count ≤ r.count :=
          fun r hr y hy => hbound r hr y (List.mem_cons_of_mem x hy)
        have hmax' : ∀ r ∈ res, ∀ e' ∈ res ++ xs, e'.adj = r.adj → e'.count ≤ r.count := by
          intro r hr e' he' hadj
          rcases List.mem_append.mp he' with h' | h'
          · exact hmax r hr e' (List.mem_append.mpr (Or.inl h')) hadj
          · exact hmax r hr e' (List.mem_append.mpr (Or.inr (List.mem_cons_of_mem x h'))) hadj
        obtain ⟨ha, hb, hc, hd⟩ := ih seen res hseen hnd hsorted hsortxs hbound' hmax'
        refine ⟨ha, hb, ?_, ?_⟩
        · intro e he
          obtain ⟨hsrc, hdom⟩ := hc e he
          refine ⟨?_, ?_⟩
          · rcases hsrc with h' | h'
            · exact Or.inl h'
            · exact Or.inr (List.mem_cons_of_mem x h')
          · intro e' he' hadj
            rcases List.mem_append.mp he' with h' | h'
            · exact hdom e' (List.mem_append.mpr (Or.inl h')) hadj
            · rcases List.mem_cons.mp h' with rfl | h''
              · -- e' = x : dominated through the representative r0
                have hr0 : r0.count ≤ e.count := by
                  refine hdom r0 (List.mem_append.mpr (Or.inl hr0mem)) ?_
                  rw [hr0adj, hadj]
                have hx0 : e'.count ≤ r0.count := hbound r0 hr0mem e' (List.mem_cons_self _ _)
                exact le_trans hx0 hr0
              · exact hdom e' (List.mem_append.mpr (Or.inr h'')) hadj
        · intro hlen y hy
          rcases List.mem_cons.mp hy with rfl | hy'
          · -- y = x : represented by r0, which survives as res is a prefix
            refine ⟨r0, ?_, hr0adj⟩
            exact (dedupTopGo_extends limit xs seen res).subset hr0mem
          · exact hd hlen y hy'
    · -- append: new adjective, x is kept
      rw [if_neg hmem]
      have hndadj : x.adj ∉ res.map AdjEntry.adj := by
        rw [← hseen]
        exact hmem
      have hseen' : seen ++ [x.adj] = (res ++ [x]).map AdjEntry.adj := by
        rw [List.map_append, hseen]
        rfl
      have hnd' : ((res ++ [x]).map AdjEntry.adj).Nodup := by
        rw [List.map_append]
        exact List.Nodup.append hnd (List.nodup_singleton x.adj)
          (fun a ha hb => hndadj ((List.mem_singleton.mp hb) ▸ ha))
      have hsorted' : (res ++ [x]).Pairwise (fun a b => b.count ≤ a.count) := by
        rw [List.pairwise_append]
        exact ⟨hsorted, List.pairwise_singleton _ x,
          fun a ha b hb => (List.mem_singleton.mp hb) ▸
            (hbound a ha x (List.mem_cons_self _ _))⟩
      have hbound' : ∀ r ∈ res ++ [x], ∀ y ∈ xs, y.count ≤ r.count := by
        intro r hr y hy
        rcases List.mem_append.mp hr with h' | h'
        · exact hbound r h' y (List.mem_cons_of_mem x hy)
        · rw [List.mem_singleton.mp h']
          exact hxdom y hy
      have hmax' : ∀ r ∈ res ++ [x], ∀ e' ∈ (res ++ [x]) ++ xs,
          e'.adj = r.adj → e'.count ≤ r.count := by
        intro r hr e' he' hadj
        have he'' : e' ∈ res ∨ e' = x ∨ e' ∈ xs := by
          rcases List.mem_append.mp he' with h' | h'
          · rcases List.mem_append.mp h' with h'' | h''
            · exact Or.inl h''
            · exact Or.inr (Or.inl (List.mem_singleton.mp h''))
          · exact Or.inr (Or.inr h')
        rcases List.mem_append.mp hr with hrres | hrx
        · rcases he'' with h' | h' | h'
          · exact hmax r hrres e' (List.mem_append.mpr (Or.inl h')) hadj
          · rw [h']
            exact hbound r hrres x (List.mem_cons_self _ _)
          · exact hmax r hrres e'
              (List.mem_append.mpr (Or.inr (List.mem_cons_of_mem x h'))) hadj
        · have hrx' : r = x := List.mem_singleton.mp hrx
          subst hrx'
          rcases he'' with h' | h' | h'
          · exact absurd (hadj ▸ (List.mem_map.mpr ⟨e', h', rfl⟩)) hndadj
          · rw [h']
          · exact hxdom e' h'
      by_cases hlim : limit ≤ res.length + 1
      · rw [if_pos hlim]
        refine ⟨hnd', hsorted', ?_, ?_⟩
        · intro e he
          refine ⟨?_, ?_⟩
          · rcases List.mem_append.mp he with h' | h'
            · exact Or.inl h'
            · exact Or.inr (List.mem_cons.mpr (Or.inl (List.mem_singleton.mp h')))
          · intro e' he' hadj
            refine hmax' e he e' ?_ hadj
            rcases List.mem_append.mp he' with h' | h'
            · exact List.mem_append.mpr (Or.inl (List.mem_append.mpr (Or.inl h')))
            · rcases List.mem_cons.mp h' with rfl | h''
              · exact List.mem_append.mpr
                  (Or.inl (List.mem_append.mpr (Or.inr (List.mem_singleton.mpr rfl))))
              · exact List.mem_append.mpr (Or.inr h'')
        · intro hlen
          rw [List.length_append] at hlen
          exact absurd hlim (Nat.not_le.mpr (by simpa using hlen))
      · rw [if_neg hlim]
        obtain ⟨ha, hb, hc, hd⟩ :=
          ih (seen ++ [x.adj]) (res ++ [x]) hseen' hnd' hsorted' hsortxs hbound' hmax'
        refine ⟨ha, hb, ?_, ?_⟩
        · intro e he
          obtain ⟨hsrc, hdom⟩ := hc e he
          refine ⟨?_, ?_⟩
          · rcases hsrc with h' | h'
            · rcases List.mem_append.mp h' with h'' | h''
              · exact Or.inl h''
              · exact Or.inr (List.mem_cons.mpr (Or.inl (List.mem_singleton.mp h'')))
            · exact Or.inr (List.mem_cons_of_mem x h')
          · intro e' he' hadj
            refine hdom e' ?_ hadj
            rcases List.mem_append.mp he' with h' | h'
            · exact List.mem_append.mpr (Or.inl (List.mem_append.mpr (Or.inl h')))
            · rcases List.mem_cons.mp h' with rfl | h''
              · exact List.mem_append.mpr
                  (Or.inl (List.mem_append.mpr (Or.inr (List.mem_singleton.mpr rfl))))
              · exact List.mem_append.mpr (Or.inr h'')
        · intro hlen y hy
          rcases List.mem_cons.mp hy with rfl | hy'
          · refine ⟨y, ?_, rfl⟩
            exact (dedupTopGo_extends limit xs (seen ++ [y.adj]) (res ++ [y])).subset
              (List.mem_append.mpr (Or.inr (List.mem_singleton.mpr rfl)))
          · exact hd hlen y hy'

/-- Deduplication by adjective following the spec's words: walk the
count-ranked list and keep the first entry seen for each adjective (which,
on a descending-ranked list, is the instance with the highest count), with
no truncation. -/
def dedupByAdj : List AdjEntry → List String → List AdjEntry
  | [], _ => []
  | x :: xs, seen =>
    if x.adj ∈ seen then dedupByAdj xs seen
    else x :: dedupByAdj xs (seen ++ [x.adj])

/-- The dedup-and-truncate loop computes exactly the full deduplication of
its input truncated to the remaining room: top-`limit` selection. -/
theorem dedupTopGo_eq_take (limit : Nat) :
    ∀ (l : List AdjEntry) (seen : List String) (res : List AdjEntry),
      res.length < limit →
      dedupTopGo limit l seen res
        = res ++ (dedupByAdj l seen).take (limit - res.length) := by
  intro l
  induction l with
  | nil =>
    intro seen res h
    simp [dedupTopGo, dedupByAdj]
  | cons x xs ih =>
    intro seen res h
    simp only [dedupTopGo, dedupByAdj]
    by_cases hmem : x.adj ∈ seen
    · rw [if_pos hmem, if_pos hmem, if_neg (Nat.not_le.mpr h)]
      exact ih seen res h
    · rw [if_neg hmem, if_neg hmem]
      by_cases hlim : limit ≤ res.length + 1
      · rw [if_pos hlim]
        have hone : limit - res.length = 1 := by omega
        rw [hone]
        rfl
      · rw [if_neg hlim]
        rw [ih (seen ++ [x.adj]) (res ++ [x])
          (by simp only [List.length_append, List.length_singleton]; omega)]
        have hsub : limit - res.length = (limit - (res ++ [x]).length) + 1 := by
          simp only [List.length_append, List.length_singleton]
          omega
        rw [hsub, List.take_succ_cons, List.append_assoc]
        rfl

/-- C4 counterexample input: one noun key, reachable only by prefix match. -/
def idxC4 : List (String × List AdjEntry) := [("dom", [⟨"staryj", 1, []⟩])]

/-- C4 counterexample. The claim quantifies over every limit, but with
`limit = 0` the prefix branch still returns one entry (the break fires only
AFTER the first append), so the result is not truncated to `limit`: the
claim fails at `limit = 0`. -/
theorem search_truncation_limit_zero_counterexample :
    ¬ ((search_adjectives_for_noun idxC4 "do" 0).length ≤ 0) := by decide

/-- C4 (amended: for every positive limit). Exact key: the key's first
`limit` entries are returned directly, prefix matching not performed.
Otherwise the result IS the count-ranked merge of the entries of every
prefix-matching noun key, deduplicated by adjective (keeping the instance
with the highest count), truncated to `limit` — top-limit selection, stated
as an equality with the ranked-dedup-truncate description and backed by the
subset/nodup/order/max-count/completeness conjuncts; the empty list when
nothing matches. -/
theorem search_adjectives_behaviour (idx : List (String × List AdjEntry))
    (query : String) (limit : Nat) (hlim : 1 ≤ limit) :
    (∀ adjs, lookupA idx (pyLower (pyStrip query)) = some adjs →
        search_adjectives_for_noun idx query limit = adjs.take limit) ∧
      (lookupA idx (pyLower (pyStrip query)) = none →
        search_adjectives_for_noun idx query limit
            = (dedupByAdj (sortDesc AdjEntry.count
                (collectMatches idx (pyLower (pyStrip query)))) []).take limit ∧
        (collectMatches idx (pyLower (pyStrip query)) = [] →
            search_adjectives_for_noun idx query limit = []) ∧
          (search_adjectives_for_noun idx query limit).length ≤ limit ∧
          ((search_adjectives_for_noun idx query limit).map AdjEntry.adj).Nodup ∧
          (search_adjectives_for_noun idx query limit).Pairwise
            (fun a b => b.count ≤ a.count) ∧
          (∀ e ∈ search_adjectives_for_noun idx query limit,
            e ∈ collectMatches idx (pyLower (pyStrip query)) ∧
              ∀ e' ∈ collectMatches idx (pyLower (pyStrip query)),
                e'.adj = e.adj → e'.count ≤ e.count) ∧
          ((search_adjectives_for_noun idx query limit).length < limit →
            ∀ e ∈ collectMatches idx (pyLower (pyStrip query)),
              ∃ r ∈ search_adjectives_for_noun idx query limit, r.adj = e.adj)) := by
  constructor
  · intro adjs hlk
    unfold search_adjectives_for_noun
    rw [hlk]
  · intro hlk
    have hs : search_adjectives_for_noun idx query limit
        = dedupTopGo limit
            (sortDesc AdjEntry.count (collectMatches idx (pyLower (pyStrip query)))) [] [] := by
      unfold search_adjectives_for_noun
      rw [hlk]
    have hperm := sortDesc_perm AdjEntry.count (collectMatches idx (pyLower (pyStrip query)))
    obtain ⟨ha, hb, hc, hd⟩ :=
      dedupTopGo_spec limit
        (sortDesc AdjEntry.count (collectMatches idx (pyLower (pyStrip query)))) [] []
        rfl List.nodup_nil (List.Pairwise.nil)
        (sortDesc_pairwise AdjEntry.count _)
        (fun r hr => absurd hr (List.not_mem_nil r))
        (fun r hr => absurd hr (List.not_mem_nil r))
    refine ⟨?_, ?_, ?_, ?_, ?_, ?_, ?_⟩
    · rw [hs]
      have h0 := dedupTopGo_eq_take limit
        (sortDesc AdjEntry.count (collectMatches idx (pyLower (pyStrip query)))) [] []
        (Nat.lt_of_lt_of_le Nat.zero_lt_one hlim)
      simpa using h0
    · intro hm
      rw [hs, hm]
      rfl
    · rw [hs]
      exact dedupTopGo_length limit _ _ _ (Nat.lt_of_lt_of_le Nat.zero_lt_one hlim)
    · rw [hs]; exact ha
    · rw [hs]; exact hb
    · rw [hs]
      intro e he
      obtain ⟨hsrc, hdom⟩ := hc e he
      refine ⟨?_, ?_⟩
      · rcases hsrc with h' | h'
        · exact absurd h' (List.not_mem_nil e)
        · exact hperm.mem_iff.mp h'
      · intro e' he' hadj
        exact hdom e' (List.mem_append.mpr (Or.inr (hperm.mem_iff.mpr he'))) hadj
    · rw [hs]
      intro hlen e hem
      exact hd hlen e (hperm.mem_iff.mpr hem)

/-- C4 witness input: the spec scenario with keys `dom` and `domik`, where
the exact key must short-circuit prefix matching. -/
def idxC4W : List (String × List AdjEntry) :=
  [("dom", [⟨"staryj", 2, []⟩, ⟨"novyj", 1, []⟩]), ("domik", [⟨"malenkij", 5, []⟩])]

theorem search_adjectives_behaviour_witness :
    search_adjectives_for_noun idxC4W "dom" 1 = [⟨"staryj", 2, []⟩] ∧
      search_adjectives_for_noun idxC4W "do" 1
        = (dedupByAdj (sortDesc AdjEntry.count
            (collectMatches idxC4W (pyLower (pyStrip "do")))) []).take 1 := by
  constructor
  · have h := (search_adjectives_behaviour idxC4W "dom" 1 (by decide)).1
      [⟨"staryj", 2, []⟩, ⟨"novyj", 1, []⟩] (by decide)
    rw [h]
    rfl
  · exact ((search_adjectives_behaviour idxC4W "do" 1 (by decide)).2 (by decide)).1

/-- C10. A query that strips to the empty string (when the empty string is
not itself a key) prefix-matches every noun key, so the search returns the
deduplicated, count-ranked top-`limit` adjectives of the entire index — and
a non-empty result whenever the index holds at least one adjective entry and
the limit is positive. -/
theorem whitespace_query_returns_all (idx : List (String × List AdjEntry))
    (query : String) (limit : Nat)
    (hq : pyStrip query = "") (hkey : lookupA idx "" = none)
    (hvals : ∃ kv ∈ idx, kv.2 ≠ []) (_hlim : 1 ≤ limit) :
    search_adjectives_for_noun idx query limit
        = dedupTopGo limit (sortDesc AdjEntry.count ((idx.map Prod.snd).flatten)) [] [] ∧
      search_adjectives_for_noun idx query limit ≠ [] := by
  have hql : pyLower (pyStrip query) = "" := by rw [hq]; rfl
  have hs : search_adjectives_for_noun idx query limit
      = dedupTopGo limit (sortDesc AdjEntry.count (collectMatches idx "")) [] [] := by
    unfold search_adjectives_for_noun
    rw [hql, hkey]
  have hflat : collectMatches idx "" = (idx.map Prod.snd).flatten :=
    collectMatches_empty_query idx
  constructor
  · rw [hs, hflat]
  · rw [hs]
    refine dedupTopGo_ne_nil limit _ ?_
    obtain ⟨kv, hkv, hne⟩ := hvals
    obtain ⟨e, he⟩ := List.exists_mem_of_ne_nil kv.2 hne
    have hem : e ∈ collectMatches idx "" := by
      rw [hflat]
      exact List.mem_flatten.mpr ⟨kv.2, List.mem_map.mpr ⟨kv, hkv, rfl⟩, he⟩
    exact List.ne_nil_of_mem
      ((sortDesc_perm AdjEntry.count (collectMatches idx "")).mem_iff.mpr hem)

/-- C10 witness input. -/
def idxC10 : List (String × List AdjEntry) :=
  [("dom", [⟨"staryj", 2, []⟩]), ("more", [⟨"sinee", 1, []⟩])]

theorem whitespace_query_returns_all_witness :
    pyStrip " " = "" ∧ search_adjectives_for_noun idxC10 " " 5 ≠ [] :=
  ⟨by decide,
    (whitespace_query_returns_all idxC10 " " 5 (by decide) (by decide)
      (by decide) (by decide)).2⟩

/-! ## Dictionary builder invariants (claims C3, C7, C8) -/

/-- Does a token carry the given dictionary key (content POS and matching
lowercased lemma and POS)? -/
def keyMatches (k : String × String) (t : Token) : Bool :=
  decide (t.pos ∈ INCLUDE_POS ∧ keyOf t = k)

/-- Flat position of the first token carrying a dictionary key. -/
def firstKeyIdx (k : String × String) : List Token → Option Nat
  | [] => none
  | t :: ts =>
    if t.pos ∈ INCLUDE_POS ∧ keyOf t = k then some 0
    else (firstKeyIdx k ts).map (· + 1)

theorem lookupA_addUniqueVal_same (m : List ((String × String) × List String))
    (k : String × String) (v : String) :
    (lookupA (addUniqueVal m k v) k).getD []
      = (if v ∈ (lookupA m k).getD [] then (lookupA m k).getD []
         else (lookupA m k).getD [] ++ [v]) := by
  unfold addUniqueVal
  by_cases hv : v ∈ (lookupA m k).getD []
  · rw [if_pos hv, if_pos hv]
  · rw [if_neg hv, if_neg hv, lookupA_setA_same]
    rfl

theorem lookupA_addUniqueVal_other (m : List ((String × String) × List String))
    (k k' : String × String) (v : String) (h : k' ≠ k) :
    lookupA (addUniqueVal m k v) k' = lookupA m k' := by
  unfold addUniqueVal
  by_cases hv : v ∈ (lookupA m k).getD []
  · rw [if_pos hv]
  · rw [if_neg hv, lookupA_setA_other _ _ _ _ h]

theorem foldlAddUnique_mem :
    ∀ (l cur : List String) (s : String),
      (s ∈ l.foldl (fun cur v => if v ∈ cur then cur else cur ++ [v]) cur)
        ↔ s ∈ cur ∨ s ∈ l := by
  intro l
  induction l with
  | nil => intro cur s; simp
  | cons v vs ih =>
    intro cur s
    rw [List.foldl_cons]
    by_cases hv : v ∈ cur
    · rw [if_pos hv, ih]
      constructor
      · rintro (h | h)
        · exact Or.inl h
        · exact Or.inr (List.mem_cons_of_mem v h)
      · rintro (h | h)
        · exact Or.inl h
        · rcases List.mem_cons.mp h with rfl | h'
          · exact Or.inl hv
          · exact Or.inr h'
    · rw [if_neg hv, ih]
      constructor
      · rintro (h | h)
        · rcases List.mem_append.mp h with h' | h'
          · exact Or.inl h'
          · exact Or.inr (List.mem_cons.mpr (Or.inl (List.mem_singleton.mp h')))
        · exact Or.inr (List.mem_cons_of_mem v h)
      · rintro (h | h)
        · exact Or.inl (List.mem_append.mpr (Or.inl h))
        · rcases List.mem_cons.mp h with rfl | h'
          · exact Or.inl (List.mem_append.mpr (Or.inr (List.mem_singleton.mpr rfl)))
          · exact Or.inr h'

theorem foldlAddUnique_nodup :
    ∀ (l cur : List String), cur.Nodup →
      (l.foldl (fun cur v => if v ∈ cur then cur else cur ++ [v]) cur).Nodup := by
  intro l
  induction l with
  | nil => intro cur h; exact h
  | cons v vs ih =>
    intro cur h
    rw [List.foldl_cons]
    by_cases hv : v ∈ cur
    · rw [if_pos hv]
      exact ih cur h
    · rw [if_neg hv]
      refine ih (cur ++ [v]) ?_
      exact List.Nodup.append h (List.nodup_singleton v)
        (fun a ha hb => hv ((List.mem_singleton.mp hb) ▸ ha))

/-- The dictionary frequency counter has duplicate-free keys and counts of
at least 1. -/
theorem dictState_freq_inv (d : Doc) :
    ((dictState d).freq.map Prod.fst).Nodup ∧ ctrWF (dictState d).freq := by
  unfold dictState
  refine foldl_preserve
    (fun s : DictState => ((s.freq.map Prod.fst).Nodup ∧ ctrWF s.freq)) _ ?_ _ _
    ⟨List.nodup_nil, fun e he => absurd he (List.not_mem_nil e)⟩
  intro s it hs
  unfold dictStep
  by_cases hcont : it.2.pos ∈ INCLUDE_POS
  · rw [if_pos hcont]
    exact ⟨keys_bumpA_nodup _ _ hs.1, ctrWF_bumpA _ _ hs.2⟩
  · rw [if_neg hcont]
    exact hs

/-- The frequency counter accumulates, per key, exactly the number of
matching tokens of the stream. -/
theorem dictFold_freq (T : List Token) (k : String × String) :
    ∀ (ts : List Token) (n : Nat) (st : DictState),
      getCountA ((List.enumFrom n ts).foldl (dictStep T) st).freq k
        = getCountA st.freq k + (ts.filter (keyMatches k)).length := by
  intro ts
  induction ts with
  | nil => intro n st; simp
  | cons t ts ih =>
    intro n st
    have henum : List.enumFrom n (t :: ts) = (n, t) :: List.enumFrom (n + 1) ts := rfl
    rw [henum, List.foldl_cons, ih]
    by_cases hcont : t.pos ∈ INCLUDE_POS
    · have hstep : (dictStep T st (n, t)).freq = bumpA st.freq (keyOf t) := by
        unfold dictStep
        rw [if_pos hcont]
      by_cases hk : keyOf t = k
      · have hfilt : (t :: ts).filter (keyMatches k) = t :: ts.filter (keyMatches k) :=
          List.filter_cons_of_pos (by simp [keyMatches, hcont, hk])
        rw [hfilt, hstep, hk, getCountA_bumpA_same, List.length_cons]
        omega
      · have hfilt : (t :: ts).filter (keyMatches k) = ts.filter (keyMatches k) :=
          List.filter_cons_of_neg (by simp [keyMatches, hcont, hk])
        rw [hfilt, hstep, getCountA_bumpA_other _ _ _ (fun h => hk h.symm)]
    · have hstep : dictStep T st (n, t) = st := by
        unfold dictStep
        rw [if_neg hcont]
      have hfilt : (t :: ts).filter (keyMatches k) = ts.filter (keyMatches k) :=
        List.filter_cons_of_neg (by simp [keyMatches, hcont])
      rw [hfilt, hstep]

/-- The surface-form set accumulates, per key, the insertion-ordered
duplicate-free list of the lowercased texts of matching tokens. -/
theorem dictFold_forms (T : List Token) (k : String × String) :
    ∀ (ts : List Token) (n : Nat) (st : DictState),
      (lookupA ((List.enumFrom n ts).foldl (dictStep T) st).forms k).getD []
        = ((ts.filter (keyMatches k)).map (fun t => pyLower t.text)).foldl
            (fun cur v => if v ∈ cur then cur else cur ++ [v])
            ((lookupA st.forms k).getD []) := by
  intro ts
  induction ts with
  | nil => intro n st; simp
  | cons t ts ih =>
    intro n st
    have henum : List.enumFrom n (t :: ts) = (n, t) :: List.enumFrom (n + 1) ts := rfl
    rw [henum, List.foldl_cons, ih]
    by_cases hcont : t.pos ∈ INCLUDE_POS
    · have hstep : (dictStep T st (n, t)).forms
          = addUniqueVal st.forms (keyOf t) (pyLower t.text) := by
        unfold dictStep
        rw [if_pos hcont]
      by_cases hk : keyOf t = k
      · have hfilt : (t :: ts).filter (keyMatches k) = t :: ts.filter (keyMatches k) :=
          List.filter_cons_of_pos (by simp [keyMatches, hcont, hk])
        rw [hfilt, List.map_cons, List.foldl_cons, hstep, hk, lookupA_addUniqueVal_same]
      · have hfilt : (t :: ts).filter (keyMatches k) = ts.filter (keyMatches k) :=
          List.filter_cons_of_neg (by simp [keyMatches, hcont, hk])
        rw [hfilt, hstep, lookupA_addUniqueVal_other _ _ _ _ (fun h => hk h.symm)]
    · have hstep : dictStep T st (n, t) = st := by
        unfold dictStep
        rw [if_neg hcont]
      have hfilt : (t :: ts).filter (keyMatches k) = ts.filter (keyMatches k) :=
        List.filter_cons_of_neg (by simp [keyMatches, hcont])
      rw [hfilt, hstep]

/-- The example store binds a key, once, to the context of its first
occurrence; later occurrences never change it. -/
theorem dictFold_exs (T : List Token) (k : String × String) :
    ∀ (ts : List Token) (n : Nat) (st : DictState),
      lookupA ((List.enumFrom n ts).foldl (dictStep T) st).exs k
        = match lookupA st.exs k with
          | some e => some e
          | none => (firstKeyIdx k ts).map (fun j => extract_context T (n + j)) := by
  intro ts
  induction ts with
  | nil =>
    intro n st
    show lookupA st.exs k = _
    cases lookupA st.exs k <;> rfl
  | cons t ts ih =>
    intro n st
    have henum : List.enumFrom n (t :: ts) = (n, t) :: List.enumFrom (n + 1) ts := rfl
    rw [henum, List.foldl_cons, ih]
    by_cases hcont : t.pos ∈ INCLUDE_POS
    · by_cases hk : keyOf t = k
      · have hfirst : firstKeyIdx k (t :: ts) = some 0 := by
          unfold firstKeyIdx
          rw [if_pos ⟨hcont, hk⟩]
        cases hsome : lookupA st.exs k with
        | some e =>
          have hstep : (dictStep T st (n, t)).exs = st.exs := by
            unfold dictStep
            rw [if_pos hcont, if_pos (by rw [hk, hsome]; rfl)]
          rw [hstep, hsome, hfirst]
        | none =>
          have hstep : (dictStep T st (n, t)).exs
              = setA st.exs k (extract_context T n) := by
            unfold dictStep
            rw [if_pos hcont, if_neg (by rw [hk, hsome]; simp), hk]
          rw [hstep, lookupA_setA_same, hfirst]
          simp
      · have hfirst : firstKeyIdx k (t :: ts)
            = (firstKeyIdx k ts).map (· + 1) := by
          show (if t.pos ∈ INCLUDE_POS ∧ keyOf t = k then some 0
            else (firstKeyIdx k ts).map (· + 1)) = (firstKeyIdx k ts).map (· + 1)
          rw [if_neg (fun hc => hk hc.2)]
        have hlk : lookupA (dictStep T st (n, t)).exs k = lookupA st.exs k := by
          unfold dictStep
          rw [if_pos hcont]
          by_cases hsome : (lookupA st.exs (keyOf t)).isSome
          · rw [if_pos hsome]
          · rw [if_neg hsome]
            exact lookupA_setA_other _ _ _ _ (fun h => hk h.symm)
        rw [hlk, hfirst]
        cases lookupA st.exs k with
        | some e => rfl
        | none =>
          cases hfi : firstKeyIdx k ts with
          | none => rfl
          | some j =>
            show some (extract_context T (n + 1 + j)) = some (extract_context T (n + (j + 1)))
            rw [show n + 1 + j = n + (j + 1) by omega]
    · have hstep : dictStep T st (n, t) = st := by
        unfold dictStep
        rw [if_neg hcont]
      have hfirst : firstKeyIdx k (t :: ts)
          = (firstKeyIdx k ts).map (· + 1) := by
        show (if t.pos ∈ INCLUDE_POS ∧ keyOf t = k then some 0
          else (firstKeyIdx k ts).map (· + 1)) = (firstKeyIdx k ts).map (· + 1)
        rw [if_neg (fun hc => hcont hc.1)]
      rw [hstep, hfirst]
      cases lookupA st.exs k with
      | some e => rfl
      | none =>
        cases hfi : firstKeyIdx k ts with
        | none => rfl
        | some j =>
          show some (extract_context T (n + 1 + j)) = some (extract_context T (n + (j + 1)))
          rw [show n + 1 + j = n + (j + 1) by omega]

/-- The keys of the frequency counter are the first-seen-order dedup of the
key stream of the content tokens. -/
theorem dictFold_keys (T : List Token) :
    ∀ (ts : List Token) (n : Nat) (st : DictState),
      ((List.enumFrom n ts).foldl (dictStep T) st).freq.map Prod.fst
        = ((ts.filter (fun t => decide (t.pos ∈ INCLUDE_POS))).map keyOf).foldl
            (fun cur k => if k ∈ cur then cur else cur ++ [k])
            (st.freq.map Prod.fst) := by
  intro ts
  induction ts with
  | nil => intro n st; simp
  | cons t ts ih =>
    intro n st
    have henum : List.enumFrom n (t :: ts) = (n, t) :: List.enumFrom (n + 1) ts := rfl
    rw [henum, List.foldl_cons, ih]
    by_cases hcont : t.pos ∈ INCLUDE_POS
    · have hstep : (dictStep T st (n, t)).freq = bumpA st.freq (keyOf t) := by
        unfold dictStep
        rw [if_pos hcont]
      have hfilt : (t :: ts).filter (fun t => decide (t.pos ∈ INCLUDE_POS))
          = t :: ts.filter (fun t => decide (t.pos ∈ INCLUDE_POS)) :=
        List.filter_cons_of_pos (by simp [hcont])
      rw [hfilt, List.map_cons, List.foldl_cons, hstep, keys_bumpA]
      by_cases hin : (lookupA st.freq (keyOf t)).isSome
      · rw [if_pos hin,
          if_pos ((lookupA_isSome_iff_mem_keys st.freq (keyOf t)).mp hin)]
      · rw [if_neg hin,
          if_neg (fun hmem => hin ((lookupA_isSome_iff_mem_keys st.freq (keyOf t)).mpr hmem))]
    · have hstep : dictStep T st (n, t) = st := by
        unfold dictStep
        rw [if_neg hcont]
      have hfilt : (t :: ts).filter (fun t => decide (t.pos ∈ INCLUDE_POS))
          = ts.filter (fun t => decide (t.pos ∈ INCLUDE_POS)) :=
        List.filter_cons_of_neg (by simp [hcont])
      rw [hfilt, hstep]

/-- C3. Every dictionary entry has a content POS; its count is exactly the
number of tokens carrying its key, and its surface forms are exactly the
distinct lowercased surface texts of those tokens, sorted. -/
theorem dictionary_entry_counts_forms (d : Doc) :
    ∀ e ∈ build_dictionary d,
      e.pos ∈ INCLUDE_POS ∧
        e.count = (d.tokens.filter (keyMatches (e.lemma_, e.pos))).length ∧
        e.surface_forms.Pairwise (fun a b => strLe a b = true) ∧
        e.surface_forms.Nodup ∧
        (∀ s, s ∈ e.surface_forms ↔
          ∃ t ∈ d.tokens, keyMatches (e.lemma_, e.pos) t = true ∧ pyLower t.text = s) := by
  intro e he
  rw [build_dictionary] at he
  obtain ⟨⟨⟨k1, k2⟩, c⟩, hkc, hmk⟩ := List.mem_map.mp he
  subst hmk
  simp only [mkDictEntry]
  have hperm := sortDesc_perm (fun e : (String × String) × Nat => e.2) (dictState d).freq
  have hmemf : ((k1, k2), c) ∈ (dictState d).freq := hperm.mem_iff.mp hkc
  obtain ⟨hnd, hwf⟩ := dictState_freq_inv d
  have hlk : lookupA (dictState d).freq (k1, k2) = some c :=
    lookupA_eq_of_mem_of_nodup _ _ _ hmemf hnd
  have hcount : getCountA (dictState d).freq (k1, k2)
      = (d.tokens.filter (keyMatches (k1, k2))).length := by
    have h0 := dictFold_freq d.tokens (k1, k2) d.tokens 0 ⟨[], [], []⟩
    rw [show getCountA (⟨[], [], []⟩ : DictState).freq (k1, k2) = 0 from rfl,
      Nat.zero_add] at h0
    exact h0
  have hc : c = (d.tokens.filter (keyMatches (k1, k2))).length := by
    rw [← hcount, getCountA, hlk]
    rfl
  have hpos : k2 ∈ INCLUDE_POS := by
    have hge : 1 ≤ c := hwf ((k1, k2), c) hmemf
    have hne : d.tokens.filter (keyMatches (k1, k2)) ≠ [] := by
      intro hnil
      rw [hc, hnil] at hge
      simp at hge
    obtain ⟨t, ht⟩ := List.exists_mem_of_ne_nil _ hne
    obtain ⟨htmem, htkm⟩ := List.mem_filter.mp ht
    obtain ⟨htcont, htkey⟩ := of_decide_eq_true htkm
    have : t.pos = k2 := congrArg Prod.snd htkey
    rw [← this]
    exact htcont
  have hforms : (lookupA (dictState d).forms (k1, k2)).getD []
      = ((d.tokens.filter (keyMatches (k1, k2))).map (fun t => pyLower t.text)).foldl
          (fun cur v => if v ∈ cur then cur else cur ++ [v]) [] := by
    have h0 := dictFold_forms d.tokens (k1, k2) d.tokens 0 ⟨[], [], []⟩
    exact h0
  refine ⟨hpos, hc, ?_, ?_, ?_⟩
  · exact sortStr_sorted _
  · refine ((sortStr_perm _).nodup_iff).mpr ?_
    rw [hforms]
    exact foldlAddUnique_nodup _ [] List.nodup_nil
  · intro s
    rw [(sortStr_perm _).mem_iff, hforms, foldlAddUnique_mem]
    constructor
    · rintro (h | h)
      · exact absurd h (List.not_mem_nil s)
      · obtain ⟨t, ht, hts⟩ := List.mem_map.mp h
        obtain ⟨htmem, htkm⟩ := List.mem_filter.mp ht
        exact ⟨t, htmem, htkm, hts⟩
    · rintro ⟨t, htmem, htkm, hts⟩
      exact Or.inr (List.mem_map.mpr ⟨t, List.mem_filter.mpr ⟨htmem, htkm⟩, hts⟩)

/-- C3 witness input: one NOUN token. -/
def tC3a : Token := ⟨"dom", some "dom", "NOUN", "1_1", none, none, 0⟩

def dC3 : Doc := ⟨[⟨[tC3a]⟩]⟩

/-- The single dictionary entry of `dC3`. -/
def eC3 : DictEntry := ⟨"dom", "NOUN", 1, ["dom"], "dom"⟩

theorem dictionary_entry_counts_forms_witness :
    eC3 ∈ build_dictionary dC3 ∧
      eC3.count = (dC3.tokens.filter (keyMatches (eC3.lemma_, eC3.pos))).length :=
  ⟨by decide, (dictionary_entry_counts_forms dC3 eC3 (by decide)).2.1⟩

/-- C7. A dictionary entry's example is the ±6-token context of the FIRST
occurrence of its key in the flat stream; later occurrences leave it
unchanged. -/
theorem dictionary_example_first_occurrence (d : Doc) :
    ∀ e ∈ build_dictionary d, ∀ i,
      firstKeyIdx (e.lemma_, e.pos) d.tokens = some i →
      e.example_ = extract_context d.tokens i := by
  intro e he i hfi
  rw [build_dictionary] at he
  obtain ⟨⟨⟨k1, k2⟩, c⟩, hkc, hmk⟩ := List.mem_map.mp he
  subst hmk
  simp only [mkDictEntry] at hfi ⊢
  have hexs2 : lookupA (dictState d).exs (k1, k2)
      = some (extract_context d.tokens (0 + i)) := by
    have hexs := dictFold_exs d.tokens (k1, k2) d.tokens 0 ⟨[], [], []⟩
    rw [hfi] at hexs
    exact hexs
  show (lookupA (dictState d).exs (k1, k2)).getD "" = extract_context d.tokens i
  rw [hexs2]
  show extract_context d.tokens (0 + i) = extract_context d.tokens i
  rw [Nat.zero_add]

/-- C7 witness input: the key (dom, NOUN) occurs at flat positions 1 and 2;
the example is fixed at position 1. -/
def tC7a : Token := ⟨"staryj", some "staryj", "ADJ", "1_1", none, none, 0⟩

def tC7b : Token := ⟨"dom", some "dom", "NOUN", "1_2", none, none, 7⟩

def tC7c : Token := ⟨"doma", some "dom", "NOUN", "1_3", none, none, 11⟩

def dC7 : Doc := ⟨[⟨[tC7a, tC7b, tC7c]⟩]⟩

/-- The (dom, NOUN) entry of `dC7`: count 2, example fixed at the first
occurrence. -/
def eC7 : DictEntry := ⟨"dom", "NOUN", 2, ["dom", "doma"], "staryj dom doma"⟩

theorem dictionary_example_first_occurrence_witness :
    eC7 ∈ build_dictionary dC7 ∧
      firstKeyIdx ("dom", "NOUN") dC7.tokens = some 1 ∧
      eC7.example_ = extract_context dC7.tokens 1 :=
  ⟨by decide, by decide,
    dictionary_example_first_occurrence dC7 eC7 (by decide) 1 (by decide)⟩

/-- C8. The dictionary is ranked by count descending; entries of equal count
keep the first-seen order of their keys (the ranked list filtered to one
count value equals the unsorted first-seen list filtered the same way), and
the unsorted entry keys are exactly the first-seen-order dedup of the
content-token key stream. -/
theorem dictionary_ranking_deterministic (d : Doc) :
    (build_dictionary d).Pairwise (fun a b => b.count ≤ a.count) ∧
      (∀ c, (build_dictionary d).filter (fun e => decide (e.count = c))
          = (dictionaryUnsorted d).filter (fun e => decide (e.count = c))) ∧
      (dictionaryUnsorted d).map (fun e => (e.lemma_, e.pos))
        = ((d.tokens.filter (fun t => decide (t.pos ∈ INCLUDE_POS))).map keyOf).foldl
            (fun cur k => if k ∈ cur then cur else cur ++ [k]) [] := by
  refine ⟨?_, ?_, ?_⟩
  · rw [build_dictionary]
    refine List.Pairwise.map _ ?_
      (sortDesc_pairwise (fun e : (String × String) × Nat => e.2) (dictState d).freq)
    intro a b h
    exact h
  · intro c
    rw [build_dictionary, dictionaryUnsorted, List.filter_map, List.filter_map]
    congr 1
    exact sortDesc_filter_key (fun e : (String × String) × Nat => e.2)
      (dictState d).freq c _ (fun a => by simp [mkDictEntry, Function.comp])
  · rw [dictionaryUnsorted, List.map_map]
    have hcomp : ((fun e : DictEntry => (e.lemma_, e.pos)) ∘ mkDictEntry (dictState d))
        = Prod.fst := by
      funext e
      rfl
    rw [hcomp]
    exact dictFold_keys d.tokens d.tokens 0 ⟨[], [], []⟩

/-! ## Statistics invariants (claim C5) -/

theorem statsStep_word_count (st : StatsState) (t : Token) :
    (statsStep st t).word_count
      = if isWordTok t then st.word_count + 1 else st.word_count := by
  unfold statsStep isWordTok
  by_cases h : t.pos = "PUNCT" ∨ t.pos = "SYM"
  · rw [if_pos h, if_neg (fun hc => hc h)]
  · rw [if_neg h, if_pos h]
    by_cases h1 : t.pos = "NOUN"
    · rw [if_pos h1]
    · rw [if_neg h1]
      by_cases h2 : t.pos = "ADJ"
      · rw [if_pos h2]
      · rw [if_neg h2]
        by_cases h3 : t.pos = "VERB"
        · rw [if_pos h3]
        · rw [if_neg h3]
          by_cases h4 : t.pos = "ADV"
          · rw [if_pos h4]
          · rw [if_neg h4]
            by_cases h5 : t.pos = "PROPN"
            · rw [if_pos h5]
            · rw [if_neg h5]

theorem statsStep_total_chars (st : StatsState) (t : Token) :
    (statsStep st t).total_chars
      = if isWordTok t then st.total_chars + t.text.length else st.total_chars := by
  unfold statsStep isWordTok
  by_cases h : t.pos = "PUNCT" ∨ t.pos = "SYM"
  · rw [if_pos h, if_neg (fun hc => hc h)]
  · rw [if_neg h, if_pos h]
    by_cases h1 : t.pos = "NOUN"
    · rw [if_pos h1]
    · rw [if_neg h1]
      by_cases h2 : t.pos = "ADJ"
      · rw [if_pos h2]
      · rw [if_neg h2]
        by_cases h3 : t.pos = "VERB"
        · rw [if_pos h3]
        · rw [if_neg h3]
          by_cases h4 : t.pos = "ADV"
          · rw [if_pos h4]
          · rw [if_neg h4]
            by_cases h5 : t.pos = "PROPN"
            · rw [if_pos h5]
            · rw [if_neg h5]

/-- The word count and character total accumulated by the statistics pass
are the declarative filter length and character sum over the word tokens. -/
theorem statsFold_counts :
    ∀ (ts : List Token) (st : StatsState),
      (ts.foldl statsStep st).word_count
          = st.word_count + (ts.filter (fun t => decide (isWordTok t))).length ∧
        (ts.foldl statsStep st).total_chars
          = st.total_chars
            + ((ts.filter (fun t => decide (isWordTok t))).map
                (fun t => t.text.length)).sum := by
  intro ts
  induction ts with
  | nil => intro st; exact ⟨rfl, rfl⟩
  | cons t ts ih =>
    intro st
    rw [List.foldl_cons]
    obtain ⟨ihw, ihc⟩ := ih (statsStep st t)
    by_cases h : isWordTok t
    · have hfilt : (t :: ts).filter (fun t => decide (isWordTok t))
          = t :: ts.filter (fun t => decide (isWordTok t)) :=
        List.filter_cons_of_pos (by simp [h])
      constructor
      · rw [ihw, statsStep_word_count, if_pos h, hfilt, List.length_cons]
        omega
      · rw [ihc, statsStep_total_chars, if_pos h, hfilt, List.map_cons, List.sum_cons]
        omega
    · have hfilt : (t :: ts).filter (fun t => decide (isWordTok t))
          = ts.filter (fun t => decide (isWordTok t)) :=
        List.filter_cons_of_neg (by simp [h])
      constructor
      · rw [ihw, statsStep_word_count, if_neg h, hfilt]
      · rw [ihc, statsStep_total_chars, if_neg h, hfilt]

/-- C5. When the document has no word tokens the ratio statistics are 0
(no division-by-zero failure); otherwise they are the rounded ratios of the
declarative counts. -/
theorem statistics_zero_guard (d : Doc) (top_n : Nat) :
    (compute_statistics d top_n).total_words
        = (d.tokens.filter (fun t => decide (isWordTok t))).length ∧
      ((d.tokens.filter (fun t => decide (isWordTok t))).length = 0 →
        (compute_statistics d top_n).vocabulary_richness = 0 ∧
          (compute_statistics d top_n).avg_word_length = 0) ∧
      (0 < (d.tokens.filter (fun t => decide (isWordTok t))).length →
        (compute_statistics d top_n).vocabulary_richness
            = round2 (((compute_statistics d top_n).unique_lemmas : ℚ)
                / ((d.tokens.filter (fun t => decide (isWordTok t))).length : ℚ) * 100) ∧
          (compute_statistics d top_n).avg_word_length
            = round2 ((((d.tokens.filter (fun t => decide (isWordTok t))).map
                  (fun t => t.text.length)).sum : ℚ)
                / ((d.tokens.filter (fun t => decide (isWordTok t))).length : ℚ))) := by
  obtain ⟨hw, hc⟩ := statsFold_counts d.tokens ⟨[], [], [], [], [], [], [], 0, 0⟩
  have hw' : (statsState d).word_count
      = (d.tokens.filter (fun t => decide (isWordTok t))).length := by
    rw [statsState, hw]
    simp
  have hc' : (statsState d).total_chars
      = ((d.tokens.filter (fun t => decide (isWordTok t))).map
          (fun t => t.text.length)).sum := by
    rw [statsState, hc]
    simp
  refine ⟨hw', ?_, ?_⟩
  · intro h0
    constructor
    · show (if (statsState d).word_count = 0 then 0
        else round2 (((statsState d).all_lemmas.length : ℚ)
          / ((statsState d).word_count : ℚ) * 100)) = 0
      rw [if_pos (by rw [hw', h0])]
    · show (if (statsState d).word_count = 0 then 0
        else round2 (((statsState d).total_chars : ℚ)
          / ((statsState d).word_count : ℚ))) = 0
      rw [if_pos (by rw [hw', h0])]
  · intro hpos
    have hne : ¬ (statsState d).word_count = 0 := by
      rw [hw']
      omega
    constructor
    · show (if (statsState d).word_count = 0 then 0
        else round2 (((statsState d).all_lemmas.length : ℚ)
          / ((statsState d).word_count : ℚ) * 100))
        = round2 (((statsState d).all_lemmas.length : ℚ)
            / ((d.tokens.filter (fun t => decide (isWordTok t))).length : ℚ) * 100)
      rw [if_neg hne, hw']
    · show (if (statsState d).word_count = 0 then 0
        else round2 (((statsState d).total_chars : ℚ)
          / ((statsState d).word_count : ℚ)))
        = round2 ((((d.tokens.filter (fun t => decide (isWordTok t))).map
              (fun t => t.text.length)).sum : ℚ)
            / ((d.tokens.filter (fun t => decide (isWordTok t))).length : ℚ))
      rw [if_neg hne, hw', hc']
      congr 1
      push_cast [List.map_map]
      rfl

/-- C5 witness input: a punctuation-only document (zero words). -/
def dC5 : Doc := ⟨[⟨[⟨".", some ".", "PUNCT", "1_1", none, none, 0⟩]⟩]⟩

theorem statistics_zero_guard_witness :
    (compute_statistics dC5 100).vocabulary_richness = 0 ∧
      (compute_statistics dC5 100).avg_word_length = 0 :=
  (statistics_zero_guard dC5 100).2.1 (by decide)
